import Mathlib

/-!
# Verification of `inline_deque` (src/inline_deque.h)

`inline_deque<T, InlineCapacity, CapacityType, Allocator>` is a double-ended
queue stored in a power-of-two sized circular buffer; small queues live in an
inline region of the object itself (`capacity_ == InlineCapacity`), larger
ones in a heap array.

Shallow embedding conventions:

* `CapacityType` is its default `uint32_t`.  The monotonically moving
  `ptr_.read_` / `ptr_.write_` counters are modelled as natural numbers below
  `U32 = 2^32`; every counter update performs the unsigned wraparound
  explicitly (`% U32`, and `sub32` for unsigned subtraction).  Capacity
  values are carried as plain `Nat`; the places where the C++ code computes
  `capacity_ * 2` or `size() * 2` in `CapacityType` keep their explicit
  `% U32`.
* The raw element array is modelled as a total function `Nat → Option α`:
  `none` is an uninitialized slot, `some v` a live element.
  `ptr_.construct` writes `some v`, `ptr_.destroy` writes `none`; only the
  slots reachable through the `index & (capacity_ - 1)` mask are ever read.
* The template parameter `InlineCapacity` is carried in the state (field
  `ic`); every operation preserves it, mirroring compile-time fixity.
  The inline-region/heap distinction is the code's own implicit tag
  `capacity_ == InlineCapacity` (`use_inline`), so "owns no heap memory"
  is expressed through that discriminant.
* Operations that throw `std::out_of_range` return `none` (`Option`); the
  exception is raised before any mutation, so an error leaves the queue
  unobservably unchanged, which the pure embedding renders by simply not
  producing a new state.
-/

namespace InlineDeque

/-- `2^32`, one beyond the maximal `uint32_t` (`CapacityType`) value. -/
def U32 : Nat := 2 ^ 32

/-- Unsigned 32-bit subtraction `a - b` (wraparound semantics). -/
def sub32 (a b : Nat) : Nat := (a + (U32 - b % U32)) % U32

/-- The state of an `inline_deque`: the `InlineCapacity` template parameter,
`capacity_`, the raw `ptr_.read_` / `ptr_.write_` counters and the element
storage (uninitialized slots are `none`). -/
structure Deque (α : Type) where
  ic : Nat
  capacity : Nat
  read : Nat
  write : Nat
  data : Nat → Option α

variable {α : Type}

/-- `ptr_read(offset)`: `ptr_.read_ + offset` in `CapacityType` arithmetic. -/
def ptr_read (q : Deque α) (offset : Nat) : Nat := (q.read + offset) % U32

/-- `ptr_write(offset)`: `ptr_.write_ + offset` in `CapacityType` arithmetic. -/
def ptr_write (q : Deque α) (offset : Nat) : Nat := (q.write + offset) % U32

/-- `slot(index)` / `slot_impl`: the storage cell at `index & (capacity_ - 1)`. -/
def slot (q : Deque α) (index : Nat) : Option α := q.data (index &&& (q.capacity - 1))

/-- Overwrite the storage cell at `index & (capacity_ - 1)` (used for
`ptr_.construct`, `ptr_.destroy` and raw slot assignment). -/
def write_slot (q : Deque α) (index : Nat) (v : Option α) : Deque α :=
  { q with data := fun j => if j = (index &&& (q.capacity - 1)) then v else q.data j }

/-- `ptr_.construct(&slot(index), v)`. -/
def construct (q : Deque α) (index : Nat) (v : α) : Deque α := write_slot q index (some v)

/-- `ptr_.destroy(&slot(index))`. -/
def destroy (q : Deque α) (index : Nat) : Deque α := write_slot q index none

/-- `size()`: `ptr_.write_ - ptr_.read_` in `CapacityType` arithmetic. -/
def size (q : Deque α) : Nat := sub32 q.write q.read

/-- `max_size()`: `std::numeric_limits<CapacityType>::max() >> 1`. -/
def max_size : Nat := (U32 - 1) / 2

/-- `operator[](i)`: `slot(ptr_read(i))`, no bounds check. -/
def idx (q : Deque α) (i : Nat) : Option α := slot q (ptr_read q i)

/-- The capacity-rounding loop of the constructor:
`while (capacity_ < initial_capacity) capacity_ *= 2;` starting from `cap`.
(The C++ loop runs in `CapacityType`; it is only ever entered with
`cap = 1` and terminates exactly when the requested capacity is at most
`2^31`, the domain in which this `Nat` rendering agrees with it.) -/
def roundUp (cap target : Nat) : Nat :=
  if h : 0 < cap ∧ cap < target then roundUp (cap * 2) target else cap
termination_by target - cap
decreasing_by omega

/-- The constructor `inline_deque(initial_capacity)`: capacity is the
requested capacity rounded up to a power of two when it exceeds
`InlineCapacity`, and `InlineCapacity` itself otherwise. -/
def mkDeque (α : Type) (ic initial_capacity : Nat) : Deque α :=
  if ic < initial_capacity then
    { ic := ic, capacity := roundUp 1 initial_capacity, read := 0, write := 0,
      data := fun _ => none }
  else
    { ic := ic, capacity := ic, read := 0, write := 0, data := fun _ => none }

/-- `resize(new_capacity)`: clamp to `InlineCapacity`, and if the capacity
actually changes, migrate the `size()` live elements to physical slots
`0..size` of a fresh array and reset `read_ = 0`, `write_ = size`. -/
def resize (q : Deque α) (new_capacity : Nat) : Deque α :=
  let nc := max new_capacity q.ic
  if nc = q.capacity then q
  else
    let current_size := size q
    { ic := q.ic, capacity := nc, read := 0, write := current_size,
      data := fun j => if j < current_size then idx q j else none }

/-- `overflow()`: double the capacity (in `CapacityType` arithmetic),
falling back to 1 when the doubling yields 0. -/
def overflow (q : Deque α) : Deque α :=
  let new_capacity := (q.capacity * 2) % U32
  resize q (if new_capacity ≠ 0 then new_capacity else 1)

/-- The halving loop of `shrink_to_fit()`:
`while (new_capacity && new_capacity > size() * 2) new_capacity /= 2;`
(`s2` is the precomputed `size() * 2`, constant during the loop). -/
def shrinkCandidate (new_capacity s2 : Nat) : Nat :=
  if h : new_capacity ≠ 0 ∧ s2 < new_capacity then shrinkCandidate (new_capacity / 2) s2
  else new_capacity
termination_by new_capacity
decreasing_by exact Nat.div_lt_self (Nat.pos_of_ne_zero h.1) one_lt_two

/-- `shrink_to_fit()`: halve the capacity while it exceeds `size() * 2`,
and physically resize only if the candidate is strictly smaller. -/
def shrink_to_fit (q : Deque α) : Deque α :=
  let nc := shrinkCandidate q.capacity ((size q * 2) % U32)
  if nc < q.capacity then resize q nc else q

/-- `shrink()`: opportunistic shrink after a pop; only attempted when the raw
`ptr_read()` counter is 0 and the capacity exceeds `size() * 2`. -/
def shrink (q : Deque α) : Deque α :=
  if ptr_read q 0 = 0 ∧ (size q * 2) % U32 < q.capacity then shrink_to_fit q else q

/-- `push_back(v)`: grow if full, construct at `slot(ptr_write())`, advance
`write_`. -/
def push_back (q : Deque α) (v : α) : Deque α :=
  let q1 := if size q = q.capacity then overflow q else q
  let q2 := construct q1 (ptr_write q1 0) v
  { q2 with write := (q2.write + 1) % U32 }

/-- `push_front(v)`: grow if full, decrement `read_` (with wraparound),
construct at `slot(ptr_read())`. -/
def push_front (q : Deque α) (v : α) : Deque α :=
  let q1 := if size q = q.capacity then overflow q else q
  let q2 := { q1 with read := sub32 q1.read 1 }
  construct q2 (ptr_read q2 0) v

/-- `pop_front()`: out-of-range error (`none`) on an empty queue; otherwise
destroy the head slot, advance `read_`, and attempt a shrink. -/
def pop_front (q : Deque α) : Option (Deque α) :=
  if size q = 0 then none
  else
    let q1 := destroy q (ptr_read q 0)
    let q2 := { q1 with read := (q1.read + 1) % U32 }
    some (shrink q2)

/-- `pop_back()`: out-of-range error (`none`) on an empty queue; otherwise
retreat `write_`, destroy the tail slot, and attempt a shrink. -/
def pop_back (q : Deque α) : Option (Deque α) :=
  if size q = 0 then none
  else
    let q1 := { q with write := sub32 q.write 1 }
    let q2 := destroy q1 (ptr_write q1 0)
    some (shrink q2)

/-- `front()`: out-of-range error (`none`) on an empty queue, else the
content of `slot(ptr_read())`. -/
def front (q : Deque α) : Option (Option α) :=
  if size q = 0 then none else some (slot q (ptr_read q 0))

/-- `back()`: out-of-range error (`none`) on an empty queue, else the
content of `slot(ptr_write(-1))`. -/
def back (q : Deque α) : Option (Option α) :=
  if size q = 0 then none else some (slot q (sub32 q.write 1))

/-- `at(i)`: out-of-range error (`none`) when `i >= size()`, else
`slot(ptr_read(i))`. -/
def at' (q : Deque α) (i : Nat) : Option (Option α) :=
  if size q ≤ i then none else some (slot q (ptr_read q i))

/-- The `while (!empty()) pop_front();` loop of `clear()`, driven by a fuel
that the caller sets to `size()` (each successful pop removes one element). -/
def clearLoop : Nat → Deque α → Deque α
  | 0, q => q
  | fuel + 1, q =>
    match pop_front q with
    | some q1 => clearLoop fuel q1
    | none => q

/-- `clear()`: pop from the front until empty. -/
def clear (q : Deque α) : Deque α := clearLoop (size q) q

/-- The capacity-growth loop of `make_space`:
`while (new_capacity < needed_capacity) new_capacity *= 2;`. -/
def growCap (new_capacity needed : Nat) : Nat :=
  if h : 0 < new_capacity ∧ new_capacity < needed then growCap (new_capacity * 2) needed
  else new_capacity
termination_by needed - new_capacity
decreasing_by omega

/-- One iteration of the backward element-moving loop of `make_space`:
construct `slot(ptr_read(move_index + count))` from `slot(ptr_read(move_index))`
and destroy the source slot. -/
def moveStep (count : Nat) (q : Deque α) (move_index : Nat) : Deque α :=
  let q1 := write_slot q (ptr_read q (move_index + count)) (slot q (ptr_read q move_index))
  destroy q1 (ptr_read q1 move_index)

/-- `make_space(pos, count)`: grow the capacity if `size() + count` exceeds
it, advance `write_` by `count`, then shift the elements at positions
`pos..size-1` forward by `count` slots, processing from the last element
backwards; returns an iterator at logical position `pos`. -/
def make_space (q : Deque α) (pos count : Nat) : Deque α × Nat :=
  if count = 0 then (q, pos)
  else
    let move_count := sub32 (size q) pos
    let last := sub32 (size q) 1
    let needed := (size q + count) % U32
    let q1 :=
      if q.capacity < needed then resize q (growCap (max 1 q.capacity * 2) needed) else q
    let q2 := { q1 with write := (q1.write + count) % U32 }
    let q3 := (List.range move_count).foldl (fun qq i => moveStep count qq (sub32 last i)) q2
    (q3, pos)

/-- `insert(pos, n, val)` (fill overload): make space for `n` slots at `pos`
and copy-construct `val` into each. -/
def insert (q : Deque α) (pos n : Nat) (val : α) : Deque α × Nat :=
  let ms := make_space q pos n
  ((List.range n).foldl (fun qq i => construct qq (ptr_read qq (ms.2 + i)) val) ms.1, ms.2)

/-- `insert(pos, val)` (single-element, `const T&` overload). -/
def insert1 (q : Deque α) (pos : Nat) (val : α) : Deque α × Nat :=
  let ms := make_space q pos 1
  (construct ms.1 (ptr_read ms.1 ms.2) val, ms.2)

/-- `erase(first, last)`: if the range is nonempty, slide every element at a
logical position `≥ last` backwards by `count = last - first`, retreat
`write_` by `count`, destroy the `count` now-dead slots past the new
`write_`; returns an iterator at logical position `first`. -/
def erase (q : Deque α) (first last : Nat) : Deque α × Nat :=
  let count := sub32 last first
  if count = 0 then (q, first)
  else
    let iters := sub32 q.write ((q.read + last) % U32)
    let q1 := (List.range iters).foldl
      (fun qq k =>
        let i := (q.read + last + k) % U32
        write_slot qq (sub32 i count) (slot qq i)) q
    let q2 := { q1 with write := sub32 q1.write count }
    let q3 := (List.range count).foldl (fun qq k => destroy qq (ptr_write qq k)) q2
    (q3, first)

/-- `clone_from(other)` (copy construction): copy `read_`/`write_`/`capacity_`
and copy-construct each live element into the same physical slot of a fresh
(uninitialized) storage region. -/
def clone_from (q : Deque α) : Deque α :=
  let base : Deque α :=
    { ic := q.ic, capacity := q.capacity, read := q.read, write := q.write,
      data := fun _ => none }
  (List.range (size q)).foldl
    (fun d i => write_slot d (ptr_read d i) (slot q (ptr_read q i))) base

/-- `move_from(other)`: the destination takes over the counters and capacity;
inline storage is moved element by element (destroying the source elements),
heap storage is transferred by pointer.  The source is left with
`capacity_ = InlineCapacity`, `read_ = write_` and no heap pointer.
Returns `(destination, source-after-move)`. -/
def move_from (src : Deque α) : Deque α × Deque α :=
  let dst0 : Deque α :=
    { ic := src.ic, capacity := src.capacity, read := src.read, write := src.write,
      data := fun _ => none }
  if src.capacity = src.ic then
    let p := (List.range (size src)).foldl
      (fun (p : Deque α × Deque α) i =>
        (write_slot p.1 (ptr_read p.1 i) (slot p.2 (ptr_read p.2 i)),
         destroy p.2 (ptr_read p.2 i))) (dst0, src)
    (p.1, { p.2 with capacity := src.ic, read := p.2.write })
  else
    ({ dst0 with data := src.data },
     { ic := src.ic, capacity := src.ic, read := src.write, write := src.write,
       data := fun _ => none })

/-! ## Arithmetic infrastructure -/

/-- `n` is a power of two (`0` is not: the `static_assert` in the source
distinguishes `InlineCapacity == 0` from the power-of-two case). -/
def IsPow2 (n : Nat) : Prop := ∃ k, n = 2 ^ k

theorem IsPow2.pos {n : Nat} (h : IsPow2 n) : 0 < n := by
  obtain ⟨k, rfl⟩ := h; exact Nat.pos_pow_of_pos k (by omega)

theorem IsPow2.one : IsPow2 1 := ⟨0, rfl⟩

theorem IsPow2.double {n : Nat} (h : IsPow2 n) : IsPow2 (n * 2) := by
  obtain ⟨k, rfl⟩ := h; exact ⟨k + 1, by ring⟩

theorem IsPow2.max {a b : Nat} (ha : IsPow2 a) (hb : IsPow2 b) : IsPow2 (Max.max a b) := by
  rcases Nat.le_total a b with h | h
  · rwa [Nat.max_eq_right h]
  · rwa [Nat.max_eq_left h]

theorem IsPow2.dvd_U32 {n : Nat} (h : IsPow2 n) (hle : n ≤ U32) : n ∣ U32 := by
  obtain ⟨k, rfl⟩ := h
  have hk : k ≤ 32 := by
    by_contra hgt
    have : 2 ^ 32 < 2 ^ k := Nat.pow_lt_pow_right (by omega) (by omega)
    simp only [U32] at hle; omega
  exact pow_dvd_pow 2 hk

theorem U32_pos : 0 < U32 := by norm_num [U32]

theorem max_size_lt : max_size < U32 := by norm_num [max_size, U32]

theorem sub32_lt (a b : Nat) : sub32 a b < U32 :=
  Nat.mod_lt _ U32_pos

theorem sub32_eq_sub {a b : Nat} (hb : b ≤ a) (ha : a < U32) : sub32 a b = a - b := by
  simp only [sub32, U32] at *
  omega

/-- `(r + s) - r = s` in 32-bit arithmetic. -/
theorem sub32_add_cancel {r s : Nat} (hr : r < U32) (hs : s < U32) :
    sub32 ((r + s) % U32) r = s := by
  simp only [sub32, U32] at *
  omega

/-- A slot mask `x &&& (c - 1)` with `c` a power of two is `x % c`. -/
theorem land_pred_pow2 {c : Nat} (hc : IsPow2 c) (x : Nat) : x &&& (c - 1) = x % c := by
  obtain ⟨k, rfl⟩ := hc
  exact Nat.and_pow_two_sub_one_eq_mod x k

/-! ## The state invariant and the abstraction relation -/

/-- The invariant every reachable `inline_deque` state satisfies, within the
documented `max_size()` domain: the capacity is a power of two between
`InlineCapacity` and `2^32`, the counters are 32-bit values, and the size
fits the capacity. -/
structure Valid (ic : Nat) (q : Deque α) : Prop where
  ic_eq : q.ic = ic
  ic_pow : IsPow2 ic
  cap_pow : IsPow2 q.capacity
  cap_le : q.capacity ≤ U32
  ic_le : ic ≤ q.capacity
  read_lt : q.read < U32
  write_lt : q.write < U32
  size_cap : size q ≤ q.capacity
  size_max : size q ≤ max_size

theorem Valid.cap_pos {ic : Nat} {q : Deque α} (v : Valid ic q) : 0 < q.capacity :=
  v.cap_pow.pos

theorem Valid.cap_dvd {ic : Nat} {q : Deque α} (v : Valid ic q) : q.capacity ∣ U32 :=
  v.cap_pow.dvd_U32 v.cap_le

/-- `write_ = read_ + size` in 32-bit arithmetic. -/
theorem Valid.write_eq {ic : Nat} {q : Deque α} (v : Valid ic q) :
    q.write = (q.read + size q) % U32 := by
  have hr := v.read_lt
  have hw := v.write_lt
  simp only [size, sub32, U32] at *
  omega

/-- The abstraction relation: the queue `q` holds exactly the elements of `l`
in logical (FIFO) order, as observed through `operator[]`. -/
def Models (q : Deque α) (l : List α) : Prop :=
  size q = l.length ∧ ∀ i : Nat, (h : i < l.length) → idx q i = some l[i]

/-! ## Physical slot lemmas -/

/-- The physical data index used by `idx q i` reduces to `(read + i) % capacity`. -/
theorem idx_eq_data_mod' {q : Deque α} (hpow : IsPow2 q.capacity)
    (hdvd : q.capacity ∣ U32) (i : Nat) :
    idx q i = q.data ((q.read + i) % q.capacity) := by
  simp only [idx, slot, ptr_read]
  rw [land_pred_pow2 hpow, Nat.mod_mod_of_dvd _ hdvd]

/-- The physical data index used by `idx q i` reduces to `(read + i) % capacity`. -/
theorem idx_eq_data_mod {ic : Nat} {q : Deque α} (v : Valid ic q) (i : Nat) :
    idx q i = q.data ((q.read + i) % q.capacity) :=
  idx_eq_data_mod' v.cap_pow v.cap_dvd i

/-- Physical injectivity: two distinct logical offsets below the capacity sit
in distinct physical slots (for any counter base `r`). -/
theorem phys_inj {c r i j : Nat} (hi : i < c) (hj : j < c)
    (h : (r + i) % c = (r + j) % c) : i = j := by
  have h2 : i % c = j % c := Nat.ModEq.add_left_cancel' r h
  rwa [Nat.mod_eq_of_lt hi, Nat.mod_eq_of_lt hj] at h2

@[simp] theorem write_slot_ic (q : Deque α) (i : Nat) (v : Option α) :
    (write_slot q i v).ic = q.ic := rfl

@[simp] theorem write_slot_capacity (q : Deque α) (i : Nat) (v : Option α) :
    (write_slot q i v).capacity = q.capacity := rfl

@[simp] theorem write_slot_read (q : Deque α) (i : Nat) (v : Option α) :
    (write_slot q i v).read = q.read := rfl

@[simp] theorem write_slot_write (q : Deque α) (i : Nat) (v : Option α) :
    (write_slot q i v).write = q.write := rfl

@[simp] theorem size_write_slot (q : Deque α) (i : Nat) (v : Option α) :
    size (write_slot q i v) = size q := rfl

/-- Reading a logical position after writing the slot of another logical
position (both through a common counter base expression `(q.read + a)`). -/
theorem idx_write_slot {ic : Nat} {q : Deque α} (v : Valid ic q) (a b : Nat) (x : Option α) :
    idx (write_slot q (ptr_read q a) x) b =
      if (q.read + b) % q.capacity = (q.read + a) % q.capacity then x else idx q b := by
  simp only [idx, slot, ptr_read, write_slot]
  simp only [land_pred_pow2 v.cap_pow, Nat.mod_mod_of_dvd _ v.cap_dvd]

/-! ## Constructor characterization -/

theorem roundUp_ge (a c : Nat) (ha : 0 < a) : c ≤ roundUp a c := by
  rw [roundUp]
  split
  · next h => exact roundUp_ge (a * 2) c (by omega)
  · next h => omega
termination_by c - a
decreasing_by omega

theorem roundUp_eq_of_ge {a c : Nat} (h : c ≤ a) : roundUp a c = a := by
  rw [roundUp]
  split
  · next hh => omega
  · rfl

theorem roundUp_pow {a : Nat} (c : Nat) (hp : IsPow2 a) : IsPow2 (roundUp a c) := by
  rw [roundUp]
  split
  · exact roundUp_pow c hp.double
  · exact hp
termination_by c - a
decreasing_by omega

/-- The result of the rounding loop, divided by two, is below the target:
the loop stops at the first doubling that reaches the target. -/
theorem roundUp_half_lt (a c : Nat) (ha : 0 < a) (hac : a < c) : roundUp a c / 2 < c := by
  rw [roundUp]
  split
  · next h =>
    by_cases h2 : a * 2 < c
    · exact roundUp_half_lt (a * 2) c (by omega) h2
    · rw [roundUp_eq_of_ge (by omega)]
      omega
  · next h => omega
termination_by c - a
decreasing_by omega

/-- The specification's `next_power_of_two`: the least power of two that is
at least `c` (for `c = 0` this is `1 = 2^0`). -/
def nextPow2 (c : Nat) : Nat := 2 ^ Nat.clog 2 c

/-- The constructor's doubling loop computes exactly `next_power_of_two`. -/
theorem roundUp_one_eq_nextPow2 (c : Nat) : roundUp 1 c = nextPow2 c := by
  by_cases hc : c ≤ 1
  · rw [roundUp_eq_of_ge hc]
    have h0 : Nat.clog 2 c = 0 :=
      Nat.le_zero.mp ((Nat.le_pow_iff_clog_le one_lt_two).1 (by simpa using hc))
    simp [nextPow2, h0]
  · push_neg at hc
    obtain ⟨k, hk⟩ := roundUp_pow (a := 1) c IsPow2.one
    have hge : c ≤ roundUp 1 c := roundUp_ge 1 c one_pos
    have hhalf : roundUp 1 c / 2 < c := roundUp_half_lt 1 c one_pos hc
    rw [hk] at hge hhalf ⊢
    have hk0 : 0 < k := by
      rcases Nat.eq_zero_or_pos k with h0 | h0
      · subst h0; simp at hge; omega
      · exact h0
    have hlow : 2 ^ (k - 1) < c := by
      have hdiv : (2 : Nat) ^ k / 2 = 2 ^ (k - 1) := by
        conv_lhs => rw [show k = (k - 1) + 1 by omega]
        rw [Nat.pow_succ, Nat.mul_div_cancel _ (by norm_num)]
      omega
    have h1 : Nat.clog 2 c ≤ k := (Nat.le_pow_iff_clog_le one_lt_two).1 hge
    have h2 : ¬ Nat.clog 2 c ≤ k - 1 := by
      intro hcl
      exact absurd ((Nat.le_pow_iff_clog_le one_lt_two).2 hcl) (by omega)
    have hck : Nat.clog 2 c = k := by omega
    rw [nextPow2, hck]

/-- Capacity of a freshly constructed queue (the two branches of the
constructor). -/
theorem mkDeque_capacity (ic c : Nat) :
    (mkDeque α ic c).capacity = if ic < c then roundUp 1 c else ic := by
  unfold mkDeque
  split <;> rfl

/-- A power of two whose half is below `c ≤ 2^32` is itself at most `2^32`. -/
theorem roundUp_le_U32 {c : Nat} (hc : c ≤ U32) : roundUp 1 c ≤ U32 := by
  by_cases h1 : c ≤ 1
  · rw [roundUp_eq_of_ge h1]; norm_num [U32]
  · push_neg at h1
    have hhalf := roundUp_half_lt 1 c one_pos h1
    obtain ⟨k, hk⟩ := roundUp_pow (a := 1) c IsPow2.one
    rw [hk] at hhalf ⊢
    by_contra hgt
    push_neg at hgt
    have h33 : 33 ≤ k := by
      by_contra hlt33
      push_neg at hlt33
      have : (2 : Nat) ^ k ≤ 2 ^ 32 := Nat.pow_le_pow_right (by omega) (by omega)
      simp only [U32] at hgt; omega
    have hbig : (2 : Nat) ^ 33 ≤ 2 ^ k := Nat.pow_le_pow_right (by omega) h33
    have h2 : (2 : Nat) ^ 33 = 2 * 2 ^ 32 := by ring
    have hcc : c ≤ 2 ^ 32 := by simpa [U32] using hc
    omega

theorem mkDeque_valid {ic : Nat} (c : Nat) (hic : IsPow2 ic) (hicle : ic ≤ U32)
    (hc : c ≤ U32) : Valid ic (mkDeque α ic c) := by
  have hic1 : 1 ≤ ic := hic.pos
  by_cases hlt : ic < c
  · have hpow : IsPow2 (roundUp 1 c) := roundUp_pow c IsPow2.one
    have hge : c ≤ roundUp 1 c := roundUp_ge 1 c one_pos
    have hle : roundUp 1 c ≤ U32 := roundUp_le_U32 hc
    simp only [mkDeque, if_pos hlt]
    exact ⟨rfl, hic, hpow, hle, by show ic ≤ roundUp 1 c; omega, by norm_num [U32],
      by norm_num [U32],
      by simp [size, sub32, U32], by simp [size, sub32, U32, max_size]⟩
  · simp only [mkDeque, if_neg hlt]
    exact ⟨rfl, hic, hic, hicle, le_refl _, by norm_num [U32], by norm_num [U32],
      by simp [size, sub32, U32], by simp [size, sub32, U32, max_size]⟩

theorem mkDeque_models (ic c : Nat) : Models (mkDeque α ic c) [] := by
  constructor
  · unfold mkDeque
    split <;> simp [size, sub32, U32]
  · intro i h
    simp at h

/-! ## 32-bit counter arithmetic -/

theorem sub32_zero {a : Nat} (ha : a < U32) : sub32 a 0 = a := by
  simp only [sub32, U32] at *
  omega

/-- `ModEq` transport: reducing a `% U32` under a capacity dividing `U32`. -/
theorem mod_cap_add {cap : Nat} (hdvd : cap ∣ U32) (x b : Nat) :
    (x % U32 + b) % cap = (x + b) % cap := by
  have h1 : (x % U32) % cap = x % cap := Nat.mod_mod_of_dvd x hdvd
  exact (Nat.ModEq.add_right b (h1 : x % U32 ≡ x [MOD cap]))

theorem size_write_incr {r w : Nat} (hr : r < U32) (hw : w < U32)
    (hs : sub32 w r + 1 < U32) : sub32 ((w + 1) % U32) r = sub32 w r + 1 := by
  simp only [sub32, U32] at *
  omega

theorem size_read_incr {r w : Nat} (hr : r < U32) (hw : w < U32)
    (hs : 1 ≤ sub32 w r) : sub32 w ((r + 1) % U32) = sub32 w r - 1 := by
  simp only [sub32, U32] at *
  omega

theorem size_read_decr {r w : Nat} (hr : r < U32) (hw : w < U32)
    (hs : sub32 w r + 1 < U32) : sub32 w (sub32 r 1) = sub32 w r + 1 := by
  simp only [sub32, U32] at *
  omega

theorem size_write_decr {r w : Nat} (hr : r < U32) (hw : w < U32)
    (hs : 1 ≤ sub32 w r) : sub32 (sub32 w 1) r = sub32 w r - 1 := by
  simp only [sub32, U32] at *
  omega

theorem sub32_lt_U32 {a : Nat} (b : Nat) (ha : a < U32) : sub32 a b < U32 := by
  simp only [sub32, U32] at *
  omega

/-! ## `resize`, `overflow`, `shrink_to_fit`, `shrink` -/

theorem resize_capacity (q : Deque α) (nc : Nat) :
    (resize q nc).capacity = Max.max nc q.ic := by
  by_cases h : Max.max nc q.ic = q.capacity
  · simp [resize, h]
  · simp [resize, h]

theorem resize_ic (q : Deque α) (nc : Nat) : (resize q nc).ic = q.ic := by
  by_cases h : Max.max nc q.ic = q.capacity
  · simp [resize, h]
  · simp [resize, h]

theorem resize_spec {ic : Nat} {q : Deque α} {l : List α} (v : Valid ic q) (m : Models q l)
    (nc : Nat) (hpow : IsPow2 (Max.max nc ic)) (hle : Max.max nc ic ≤ U32)
    (hlen : l.length ≤ Max.max nc ic) :
    Valid ic (resize q nc) ∧ Models (resize q nc) l := by
  by_cases h : Max.max nc q.ic = q.capacity
  · have heq : resize q nc = q := by simp [resize, h]
    rw [heq]
    exact ⟨v, m⟩
  · have heq : resize q nc =
        { ic := q.ic, capacity := Max.max nc q.ic, read := 0, write := size q,
          data := fun j => if j < size q then idx q j else none } := by
      simp [resize, h]
    rw [v.ic_eq] at heq h
    have hs : size q = l.length := m.1
    have hsmax := v.size_max
    have hslt : size q < U32 := by
      have := max_size_lt; omega
    have hszero : sub32 (size q) 0 = size q := sub32_zero hslt
    have hcappos : 0 < Max.max nc ic := hpow.pos
    rw [heq]
    constructor
    · exact ⟨rfl, v.ic_pow, hpow, hle, le_max_right _ _, by norm_num [U32], hslt,
        by show sub32 (size q) 0 ≤ Max.max nc ic; rw [hszero]; omega,
        by show sub32 (size q) 0 ≤ max_size; rw [hszero]; exact hsmax⟩
    · constructor
      · show sub32 (size q) 0 = l.length
        rw [hszero, hs]
      · intro i hi
        have hdvd : (Max.max nc ic) ∣ U32 := hpow.dvd_U32 hle
        rw [idx_eq_data_mod' (by exact hpow) (by exact hdvd) i]
        have hilt : i < Max.max nc ic := by omega
        show (if (0 + i) % Max.max nc ic < size q then idx q ((0 + i) % Max.max nc ic)
          else none) = some l[i]
        simp only [Nat.zero_add, Nat.mod_eq_of_lt hilt]
        rw [if_pos (show i < size q by omega)]
        exact m.2 i hi

theorem IsPow2.two_mul_lt {n : Nat} (h : IsPow2 n) (hle : n ≤ max_size) : 2 * n < U32 := by
  obtain ⟨k, rfl⟩ := h
  have hk : k ≤ 30 := by
    by_contra hgt
    push_neg at hgt
    have : (2 : Nat) ^ 31 ≤ 2 ^ k := Nat.pow_le_pow_right (by omega) (by omega)
    have h31 : (2 : Nat) ^ 31 = 2147483648 := by norm_num
    simp only [max_size, U32] at hle
    norm_num at hle
    omega
  have : (2 : Nat) ^ k ≤ 2 ^ 30 := Nat.pow_le_pow_right (by omega) hk
  have h30 : (2 : Nat) ^ 30 = 1073741824 := by norm_num
  simp only [U32]
  norm_num
  omega

theorem overflow_spec {ic : Nat} {q : Deque α} {l : List α} (v : Valid ic q)
    (m : Models q l) (hfull : size q = q.capacity) :
    Valid ic (overflow q) ∧ Models (overflow q) l ∧
      (overflow q).capacity = 2 * q.capacity := by
  have hcap2 : 2 * q.capacity < U32 := v.cap_pow.two_mul_lt (hfull ▸ v.size_max)
  have hcappos : 0 < q.capacity := v.cap_pos
  have hmod : (q.capacity * 2) % U32 = 2 * q.capacity := by
    rw [Nat.mod_eq_of_lt (by omega)]
    omega
  have hne : (q.capacity * 2) % U32 ≠ 0 := by omega
  have hmax : Max.max (2 * q.capacity) ic = 2 * q.capacity :=
    Nat.max_eq_left (le_trans v.ic_le (by omega))
  unfold overflow
  simp only [hmod] at hne ⊢
  rw [if_pos hne]
  have hpow : IsPow2 (2 * q.capacity) := by
    have := v.cap_pow.double
    rwa [Nat.mul_comm] at this
  obtain ⟨hv, hm⟩ := resize_spec v m (2 * q.capacity) (by rw [hmax]; exact hpow)
    (by rw [hmax]; omega)
    (by rw [hmax, ← m.1]; rw [hfull]; omega)
  refine ⟨hv, hm, ?_⟩
  rw [resize_capacity, v.ic_eq, hmax]

theorem shrinkCandidate_le (n t : Nat) : shrinkCandidate n t ≤ n := by
  rw [shrinkCandidate]
  split
  · next h =>
    have := shrinkCandidate_le (n / 2) t
    omega
  · exact le_refl n
termination_by n
decreasing_by exact Nat.div_lt_self (Nat.pos_of_ne_zero (by omega)) one_lt_two

theorem shrinkCandidate_pow (t n : Nat) (h : IsPow2 n) :
    IsPow2 (shrinkCandidate n t) ∨ shrinkCandidate n t = 0 := by
  induction n using Nat.strong_induction_on with
  | _ n ih =>
    rw [shrinkCandidate]
    split
    · next hcond =>
      by_cases h1 : n = 1
      · subst h1
        right
        rw [shrinkCandidate]
        norm_num
      · obtain ⟨k, hk⟩ := h
        have hk0 : 0 < k := by
          rcases Nat.eq_zero_or_pos k with h0 | h0
          · subst h0; simp at hk; exact absurd hk h1
          · exact h0
        have hhalf : n / 2 = 2 ^ (k - 1) := by
          rw [hk]
          conv_lhs => rw [show k = (k - 1) + 1 by omega]
          rw [Nat.pow_succ, Nat.mul_div_cancel _ (by norm_num)]
        have hlt : n / 2 < n := Nat.div_lt_self (Nat.pos_of_ne_zero hcond.1) one_lt_two
        exact ih (n / 2) hlt (hhalf ▸ ⟨k - 1, rfl⟩)
    · exact Or.inl h

theorem shrinkCandidate_ge {n s : Nat} (hs : 1 ≤ s) (hn : s ≤ n) :
    s ≤ shrinkCandidate n (2 * s) := by
  rw [shrinkCandidate]
  split
  · next h => exact shrinkCandidate_ge hs (by omega)
  · next h => omega
termination_by n
decreasing_by exact Nat.div_lt_self (Nat.pos_of_ne_zero (by omega)) one_lt_two

theorem shrink_to_fit_spec {ic : Nat} {q : Deque α} {l : List α} (v : Valid ic q)
    (m : Models q l) :
    Valid ic (shrink_to_fit q) ∧ Models (shrink_to_fit q) l ∧
      (shrink_to_fit q).capacity ≤ q.capacity := by
  have hsmax := v.size_max
  have ht : (size q * 2) % U32 = 2 * size q := by
    have : 2 * size q < U32 := by
      simp only [max_size, U32] at *
      omega
    rw [Nat.mod_eq_of_lt (by omega)]
    omega
  simp only [shrink_to_fit, ht]
  by_cases hlt : shrinkCandidate q.capacity (2 * size q) < q.capacity
  · rw [if_pos hlt]
    set nc := shrinkCandidate q.capacity (2 * size q) with hnc
    have hpow : IsPow2 (Max.max nc ic) := by
      rcases shrinkCandidate_pow (2 * size q) q.capacity v.cap_pow with hp | h0
      · exact hp.max v.ic_pow
      · rw [← hnc] at h0
        rw [h0]
        simpa using v.ic_pow
    have hle : Max.max nc ic ≤ U32 := by
      have h1 : nc ≤ q.capacity := shrinkCandidate_le _ _
      have := v.cap_le
      have := v.ic_le
      omega
    have hlen : l.length ≤ Max.max nc ic := by
      rw [← m.1]
      rcases Nat.eq_zero_or_pos (size q) with h0 | h0
      · omega
      · have : size q ≤ nc := shrinkCandidate_ge h0 v.size_cap
        omega
    obtain ⟨hv, hm⟩ := resize_spec v m nc hpow hle hlen
    refine ⟨hv, hm, ?_⟩
    rw [resize_capacity, v.ic_eq]
    have h1 : nc ≤ q.capacity := shrinkCandidate_le _ _
    have := v.ic_le
    omega
  · rw [if_neg hlt]
    exact ⟨v, m, le_refl _⟩

theorem shrink_spec {ic : Nat} {q : Deque α} {l : List α} (v : Valid ic q)
    (m : Models q l) :
    Valid ic (shrink q) ∧ Models (shrink q) l ∧ (shrink q).capacity ≤ q.capacity := by
  unfold shrink
  split
  · exact shrink_to_fit_spec v m
  · exact ⟨v, m, le_refl _⟩

/-! ## Push and pop -/

@[simp] theorem idx_update_write (q : Deque α) (w i : Nat) :
    idx { q with write := w } i = idx q i := rfl

@[simp] theorem construct_capacity (q : Deque α) (i : Nat) (x : α) :
    (construct q i x).capacity = q.capacity := rfl

@[simp] theorem construct_read (q : Deque α) (i : Nat) (x : α) :
    (construct q i x).read = q.read := rfl

@[simp] theorem construct_write (q : Deque α) (i : Nat) (x : α) :
    (construct q i x).write = q.write := rfl

/-- Shifting the base of a physical-index computation by a full `U32` turn
(or reducing an inner `% U32`) does not change the slot, since the capacity
divides `U32`. -/
theorem mod_cap_read_decr {cap r : Nat} (hdvd : cap ∣ U32) (hr : r < U32) (j : Nat) :
    (sub32 r 1 + (j + 1)) % cap = (r + j) % cap := by
  have h1 : sub32 r 1 = (r + U32 - 1) % U32 := by
    simp only [sub32, U32] at *
    omega
  rw [h1, mod_cap_add hdvd]
  have h2 : r + U32 - 1 + (j + 1) = r + j + U32 := by
    have : 1 ≤ U32 := by norm_num [U32]
    omega
  rw [h2]
  obtain ⟨mm, hm⟩ := hdvd
  rw [hm, Nat.add_mul_mod_self_left]

theorem mod_cap_read_incr {cap r : Nat} (hdvd : cap ∣ U32) (j : Nat) :
    ((r + 1) % U32 + j) % cap = (r + (j + 1)) % cap := by
  rw [mod_cap_add hdvd]
  congr 1
  omega

/-- The state after the (possible) `overflow()` at the start of a push:
still models `l`, and now has room. -/
theorem full_step {ic : Nat} {q : Deque α} {l : List α} (v : Valid ic q) (m : Models q l) :
    Valid ic (if size q = q.capacity then overflow q else q) ∧
      Models (if size q = q.capacity then overflow q else q) l ∧
      size (if size q = q.capacity then overflow q else q) <
        (if size q = q.capacity then overflow q else q).capacity := by
  by_cases hfull : size q = q.capacity
  · rw [if_pos hfull]
    obtain ⟨v1, m1, hcap⟩ := overflow_spec v m hfull
    refine ⟨v1, m1, ?_⟩
    rw [hcap, m1.1, ← m.1, hfull]
    have := v.cap_pos
    omega
  · rw [if_neg hfull]
    exact ⟨v, m, lt_of_le_of_ne v.size_cap hfull⟩

theorem push_back_spec {ic : Nat} {q : Deque α} {l : List α} (v : Valid ic q)
    (m : Models q l) (x : α) (hlen : l.length < max_size) :
    Valid ic (push_back q x) ∧ Models (push_back q x) (l ++ [x]) := by
  obtain ⟨v1, m1, hroom⟩ := full_step v m
  set q1 := if size q = q.capacity then overflow q else q with hq1
  have hs : size q1 = l.length := m1.1
  have hpb : push_back q x =
      { construct q1 (ptr_write q1 0) x with write := (q1.write + 1) % U32 } := rfl
  have hidxw : ptr_write q1 0 = ptr_read q1 (size q1) := by
    simp only [ptr_write, ptr_read]
    rw [v1.write_eq]
    simp only [Nat.add_zero]
    exact Nat.mod_mod_of_dvd _ (dvd_refl U32)
  have hslt : size q1 + 1 < U32 := by
    have := max_size_lt
    omega
  have hsN : size (push_back q x) = size q1 + 1 := by
    rw [hpb]
    show sub32 ((q1.write + 1) % U32) q1.read = size q1 + 1
    exact size_write_incr v1.read_lt v1.write_lt hslt
  have hidxN : ∀ b : Nat, idx (push_back q x) b =
      if (q1.read + b) % q1.capacity = (q1.read + size q1) % q1.capacity then some x
      else idx q1 b := by
    intro b
    rw [hpb, idx_update_write, hidxw]
    exact idx_write_slot v1 (size q1) b (some x)
  constructor
  · refine ⟨?_, v1.ic_pow, ?_, ?_, ?_, ?_, ?_, ?_, ?_⟩
    · rw [hpb]; exact v1.ic_eq
    · rw [hpb]; exact v1.cap_pow
    · rw [hpb]; exact v1.cap_le
    · rw [hpb]; exact v1.ic_le
    · rw [hpb]; exact v1.read_lt
    · rw [hpb]
      show (q1.write + 1) % U32 < U32
      exact Nat.mod_lt _ U32_pos
    · rw [hsN]
      have : (push_back q x).capacity = q1.capacity := by rw [hpb]; rfl
      rw [this]
      omega
    · rw [hsN, hs]
      omega
  · constructor
    · rw [hsN, hs]
      simp
    · intro b hb
      rw [List.length_append, List.length_singleton] at hb
      rw [hidxN b]
      by_cases hbs : b = l.length
      · subst hbs
        rw [if_pos (by rw [hs])]
        rw [List.getElem_concat_length _ _ _ rfl]
      · have hblt : b < l.length := by omega
        rw [if_neg ?_, m1.2 b hblt, List.getElem_append_left hblt]
        intro hcontra
        have : b = size q1 := phys_inj (by omega : b < q1.capacity)
          (by omega : size q1 < q1.capacity) hcontra
        omega

theorem push_front_spec {ic : Nat} {q : Deque α} {l : List α} (v : Valid ic q)
    (m : Models q l) (x : α) (hlen : l.length < max_size) :
    Valid ic (push_front q x) ∧ Models (push_front q x) (x :: l) := by
  obtain ⟨v1, m1, hroom⟩ := full_step v m
  set q1 := if size q = q.capacity then overflow q else q with hq1
  have hs : size q1 = l.length := m1.1
  have hslt : size q1 + 1 < U32 := by
    have := max_size_lt
    omega
  have hpf : push_front q x =
      construct { q1 with read := sub32 q1.read 1 } (ptr_read { q1 with read := sub32 q1.read 1 } 0) x := rfl
  set q2 : Deque α := { q1 with read := sub32 q1.read 1 } with hq2
  have hcap2 : q2.capacity = q1.capacity := rfl
  have hs2 : size q2 = size q1 + 1 := by
    show sub32 q1.write (sub32 q1.read 1) = size q1 + 1
    exact size_read_decr v1.read_lt v1.write_lt hslt
  have v2 : Valid ic q2 := by
    refine ⟨v1.ic_eq, v1.ic_pow, v1.cap_pow, v1.cap_le, v1.ic_le, ?_, v1.write_lt, ?_, ?_⟩
    · show sub32 q1.read 1 < U32
      exact sub32_lt _ _
    · rw [hs2, hcap2]; omega
    · rw [hs2, hs]; omega
  have hidxN : ∀ b : Nat, idx (push_front q x) b =
      if (q2.read + b) % q2.capacity = (q2.read + 0) % q2.capacity then some x
      else idx q2 b := by
    intro b
    rw [hpf]
    exact idx_write_slot v2 0 b (some x)
  constructor
  · refine ⟨v2.ic_eq, v2.ic_pow, v2.cap_pow, v2.cap_le, v2.ic_le, v2.read_lt, v2.write_lt, ?_, ?_⟩
    · show size q2 ≤ q2.capacity
      exact v2.size_cap
    · show size q2 ≤ max_size
      exact v2.size_max
  · constructor
    · show size q2 = (x :: l).length
      rw [hs2, hs, List.length_cons]
    · intro b hb
      rw [List.length_cons] at hb
      rw [hidxN b]
      cases b with
      | zero =>
        rw [if_pos rfl]
        rfl
      | succ j =>
        rw [if_neg ?_]
        · have hj : j < l.length := by omega
          have : idx q2 (j + 1) = idx q1 j := by
            rw [idx_eq_data_mod' v2.cap_pow v2.cap_dvd, idx_eq_data_mod' v1.cap_pow v1.cap_dvd]
            show q1.data ((sub32 q1.read 1 + (j + 1)) % q1.capacity) =
              q1.data ((q1.read + j) % q1.capacity)
            rw [mod_cap_read_decr v1.cap_dvd v1.read_lt j]
          rw [this, m1.2 j hj]
          simp
        · intro hcontra
          have : j + 1 = 0 := phys_inj (by omega : j + 1 < q2.capacity)
            (by have := v2.cap_pos; omega : 0 < q2.capacity) hcontra
          omega

theorem pop_front_spec {ic : Nat} {q : Deque α} {x : α} {l : List α} (v : Valid ic q)
    (m : Models q (x :: l)) :
    ∃ q', pop_front q = some q' ∧ Valid ic q' ∧ Models q' l := by
  have hs : size q = l.length + 1 := by rw [m.1, List.length_cons]
  have hne : ¬ size q = 0 := by omega
  refine ⟨_, by rw [pop_front, if_neg hne], ?_⟩
  set q1 : Deque α := destroy q (ptr_read q 0) with hq1
  set q2 : Deque α := { q1 with read := (q1.read + 1) % U32 } with hq2
  have hread1 : q1.read = q.read := rfl
  have hs2 : size q2 = l.length := by
    show sub32 q1.write ((q1.read + 1) % U32) = l.length
    have : sub32 q1.write q1.read = size q := rfl
    have h := size_read_incr (r := q1.read) (w := q1.write) v.read_lt v.write_lt
      (by rw [this, hs]; omega)
    rw [h, this, hs]
    omega
  have hcap2 : q2.capacity = q.capacity := rfl
  have v2 : Valid ic q2 := by
    refine ⟨v.ic_eq, v.ic_pow, v.cap_pow, v.cap_le, v.ic_le, ?_, v.write_lt, ?_, ?_⟩
    · show (q1.read + 1) % U32 < U32
      exact Nat.mod_lt _ U32_pos
    · rw [hs2, hcap2]
      have := v.size_cap
      omega
    · rw [hs2]
      have := v.size_max
      omega
  have m2 : Models q2 l := by
    refine ⟨hs2, ?_⟩
    intro j hj
    have hshift : idx q2 j = q1.data ((q.read + (j + 1)) % q.capacity) := by
      have h1 : idx q2 j = q2.data ((q2.read + j) % q2.capacity) :=
        idx_eq_data_mod' v2.cap_pow v2.cap_dvd j
      rw [h1]
      show q1.data (((q.read + 1) % U32 + j) % q.capacity) = _
      rw [mod_cap_read_incr v.cap_dvd]
    rw [hshift]
    have hdest : q1.data ((q.read + (j + 1)) % q.capacity) = idx q (j + 1) := by
      show (write_slot q (ptr_read q 0) none).data ((q.read + (j + 1)) % q.capacity) =
        idx q (j + 1)
      rw [idx_eq_data_mod' v.cap_pow v.cap_dvd]
      simp only [write_slot, ptr_read]
      simp only [land_pred_pow2 v.cap_pow, Nat.mod_mod_of_dvd _ v.cap_dvd]
      rw [if_neg ?_]
      intro hcontra
      have hcap := v.cap_pos
      have : j + 1 = 0 := phys_inj
        (by have := v.size_cap; omega : j + 1 < q.capacity)
        (by omega : 0 < q.capacity) (by rw [hcontra])
      omega
    rw [hdest, m.2 (j + 1) (by simpa using hj)]
    simp
  obtain ⟨vs, ms, _⟩ := shrink_spec v2 m2
  exact ⟨vs, ms⟩

theorem pop_back_spec {ic : Nat} {q : Deque α} {x : α} {l : List α} (v : Valid ic q)
    (m : Models q (l ++ [x])) :
    ∃ q', pop_back q = some q' ∧ Valid ic q' ∧ Models q' l := by
  have hs : size q = l.length + 1 := by rw [m.1]; simp
  have hne : ¬ size q = 0 := by omega
  refine ⟨_, by rw [pop_back, if_neg hne], ?_⟩
  set q1 : Deque α := { q with write := sub32 q.write 1 } with hq1
  have hc1 : q1.capacity = q.capacity := rfl
  have hs1 : size q1 = l.length := by
    show sub32 (sub32 q.write 1) q.read = l.length
    have h := size_write_decr (r := q.read) (w := q.write) v.read_lt v.write_lt
      (by rw [show sub32 q.write q.read = size q from rfl, hs]; omega)
    rw [h, show sub32 q.write q.read = size q from rfl, hs]
    omega
  have v1 : Valid ic q1 := by
    refine ⟨v.ic_eq, v.ic_pow, v.cap_pow, v.cap_le, v.ic_le, v.read_lt, ?_, ?_, ?_⟩
    · show sub32 q.write 1 < U32
      exact sub32_lt _ _
    · rw [hs1, hc1]
      have := v.size_cap
      omega
    · rw [hs1]
      have := v.size_max
      omega
  set q2 : Deque α := destroy q1 (ptr_write q1 0) with hq2
  -- the destroyed slot is the slot of logical position `l.length`
  have hwidx : ptr_write q1 0 = ptr_read q1 l.length := by
    show (sub32 q.write 1 + 0) % U32 = (q.read + l.length) % U32
    rw [v.write_eq, hs]
    have hr := v.read_lt
    simp only [sub32, U32] at hr ⊢
    omega
  have v2 : Valid ic q2 := by
    refine ⟨v1.ic_eq, v1.ic_pow, v1.cap_pow, v1.cap_le, v1.ic_le, v1.read_lt, v1.write_lt, ?_, ?_⟩
    · show size q1 ≤ q1.capacity
      exact v1.size_cap
    · show size q1 ≤ max_size
      exact v1.size_max
  have m2 : Models q2 l := by
    refine ⟨by show size q1 = l.length; exact hs1, ?_⟩
    intro j hj
    have hif : idx q2 j = if (q1.read + j) % q1.capacity = (q1.read + l.length) % q1.capacity
        then none else idx q1 j := by
      rw [hq2, destroy, hwidx]
      exact idx_write_slot v1 l.length j none
    have hne2 : (q1.read + j) % q1.capacity ≠ (q1.read + l.length) % q1.capacity := by
      intro hcontra
      have hj2 : j = l.length := phys_inj
        (by have := v.size_cap; rw [hc1]; omega : j < q1.capacity)
        (by have := v.size_cap; rw [hc1]; omega : l.length < q1.capacity) hcontra
      omega
    rw [hif, if_neg hne2]
    have hq1q : idx q1 j = idx q j := by
      rw [idx_eq_data_mod' v1.cap_pow v1.cap_dvd, idx_eq_data_mod' v.cap_pow v.cap_dvd]
    rw [hq1q, m.2 j (by simp; omega), List.getElem_append_left hj]
  obtain ⟨vs, ms, _⟩ := shrink_spec v2 m2
  exact ⟨vs, ms⟩

/-! ## Operation sequences (for the push/pop FIFO claim)

A sequence of end operations, its effect on the reference list model
(`push_back` appends at logical position `size`, `push_front` prepends at
logical position `0`, pops remove at the respective ends), and its effect on
the queue. -/

inductive Op (α : Type) where
  | pushF (v : α)
  | pushB (v : α)
  | popF
  | popB

/-- Reference model of one operation on the abstract element list. -/
def modelStep (l : List α) : Op α → List α
  | .pushF v => v :: l
  | .pushB v => l ++ [v]
  | .popF => l.tail
  | .popB => l.dropLast

/-- Reference model of an operation sequence. -/
def modelRun (l : List α) (ops : List (Op α)) : List α := ops.foldl modelStep l

/-- Legality of a sequence: no pop is applied to an empty queue, and the
element count always stays within the container's documented `max_size()`. -/
def legalFrom : List α → List (Op α) → Prop
  | _, [] => True
  | l, op :: rest =>
    (match op with
     | .pushF _ => l.length < max_size
     | .pushB _ => l.length < max_size
     | .popF => l ≠ []
     | .popB => l ≠ []) ∧ legalFrom (modelStep l op) rest

/-- One operation applied to the queue (a legal pop never hits the `none`
error branch, so the `getD` default is irrelevant). -/
def runOp (q : Deque α) : Op α → Deque α
  | .pushF v => push_front q v
  | .pushB v => push_back q v
  | .popF => (pop_front q).getD q
  | .popB => (pop_back q).getD q

/-- An operation sequence applied to the queue. -/
def run (q : Deque α) (ops : List (Op α)) : Deque α := ops.foldl runOp q

def countPushes (ops : List (Op α)) : Nat :=
  ops.countP fun op => match op with
    | .pushF _ => true
    | .pushB _ => true
    | _ => false

def countPops (ops : List (Op α)) : Nat :=
  ops.countP fun op => match op with
    | .popF => true
    | .popB => true
    | _ => false

theorem modelRun_length {l : List α} {ops : List (Op α)} (hleg : legalFrom l ops) :
    (modelRun l ops).length + countPops ops = l.length + countPushes ops := by
  induction ops generalizing l with
  | nil => simp [modelRun, countPops, countPushes]
  | cons op rest ih =>
    obtain ⟨hop, hrest⟩ := hleg
    have hrun : modelRun l (op :: rest) = modelRun (modelStep l op) rest := rfl
    have := ih hrest
    cases op with
    | pushF x =>
      simp only [hrun, countPops, countPushes, List.countP_cons] at *
      simp [modelStep] at this ⊢
      omega
    | pushB x =>
      simp only [hrun, countPops, countPushes, List.countP_cons] at *
      simp [modelStep] at this ⊢
      omega
    | popF =>
      simp only [hrun, countPops, countPushes, List.countP_cons] at *
      simp [modelStep] at this ⊢
      have hne : l.length ≠ 0 := fun h0 => hop (List.eq_nil_of_length_eq_zero h0)
      omega
    | popB =>
      simp only [hrun, countPops, countPushes, List.countP_cons] at *
      simp [modelStep] at this ⊢
      have hne : l.length ≠ 0 := fun h0 => hop (List.eq_nil_of_length_eq_zero h0)
      omega

/-- The simulation: a legal operation sequence takes a valid queue modelling
`l` to a valid queue modelling the reference-model result. -/
theorem run_spec {ic : Nat} (ops : List (Op α)) {q : Deque α} {l : List α}
    (v : Valid ic q) (m : Models q l) (hleg : legalFrom l ops) :
    Valid ic (run q ops) ∧ Models (run q ops) (modelRun l ops) := by
  induction ops generalizing q l with
  | nil => exact ⟨v, m⟩
  | cons op rest ih =>
    obtain ⟨hop, hrest⟩ := hleg
    have hrun : run q (op :: rest) = run (runOp q op) rest := rfl
    have hmrun : modelRun l (op :: rest) = modelRun (modelStep l op) rest := rfl
    rw [hrun, hmrun]
    cases op with
    | pushF x =>
      obtain ⟨v', m'⟩ := push_front_spec v m x hop
      exact ih v' m' hrest
    | pushB x =>
      obtain ⟨v', m'⟩ := push_back_spec v m x hop
      exact ih v' m' hrest
    | popF =>
      cases l with
      | nil => exact absurd rfl hop
      | cons x t =>
        obtain ⟨q', hq', v', m'⟩ := pop_front_spec v m
        have : runOp q Op.popF = q' := by
          simp [runOp, hq']
        rw [this]
        exact ih v' m' hrest
    | popB =>
      have hlast : l.dropLast ++ [l.getLast hop] = l := List.dropLast_append_getLast hop
      rw [← hlast] at m
      obtain ⟨q', hq', v', m'⟩ := pop_back_spec v m
      have : runOp q Op.popB = q' := by
        simp [runOp, hq']
      rw [this]
      have hms : modelStep l Op.popB = l.dropLast := rfl
      rw [hms]
      exact ih v' m' hrest

theorem front_models {ic : Nat} {q : Deque α} {l : List α} (v : Valid ic q)
    (m : Models q l) : front q = l.head?.map some := by
  cases l with
  | nil =>
    have h0 : size q = 0 := by rw [m.1]; rfl
    simp [front, h0]
  | cons x t =>
    have hs : size q = t.length + 1 := by rw [m.1, List.length_cons]
    have h1 : front q = some (idx q 0) := by
      rw [front, if_neg (by omega)]
      rfl
    rw [h1, m.2 0 (by simp)]
    simp

theorem back_models {ic : Nat} {q : Deque α} {l : List α} (v : Valid ic q)
    (m : Models q l) : back q = l.getLast?.map some := by
  cases hl : l with
  | nil =>
    subst hl
    have h0 : size q = 0 := by rw [m.1]; rfl
    simp [back, h0]
  | cons y t =>
    have hs : size q = l.length := m.1
    have hlen : 1 ≤ l.length := by rw [hl]; simp
    have harith : sub32 q.write 1 = ptr_read q (l.length - 1) := by
      rw [v.write_eq, hs]
      have hr := v.read_lt
      have hlu : l.length < U32 := by
        have := v.size_max
        have := max_size_lt
        omega
      simp only [sub32, ptr_read, U32] at hr ⊢ <;> omega
    rw [← hl] at *
    have h1 : back q = some (idx q (l.length - 1)) := by
      rw [back, if_neg (by omega), harith]
      rfl
    rw [h1, m.2 (l.length - 1) (by omega)]
    rw [List.getLast?_eq_getElem?, List.getElem?_eq_getElem (by omega)]
    rfl

/-- **C1** For every sequence of `push_front`/`push_back`/`pop_front`/`pop_back`
operations in which no pop is applied to an empty queue (and the element count
stays within the documented `max_size()` domain), `size()` equals the total
number of pushes minus the total number of pops, and the elements observed via
`front()`/`back()`/`operator[]` appear in FIFO order with respect to the end
they were pushed at: the queue contents coincide with a reference list in
which `push_back` appends at logical position `size` and `push_front` prepends
at logical position `0`. -/
theorem c1_push_pop_fifo (ic c : Nat) (ops : List (Op α))
    (hic : IsPow2 ic) (hicle : ic ≤ U32) (hc : c ≤ U32) (hleg : legalFrom [] ops) :
    size (run (mkDeque α ic c) ops) = countPushes ops - countPops ops ∧
      (∀ i : Nat, (h : i < (modelRun ([] : List α) ops).length) →
        idx (run (mkDeque α ic c) ops) i = some (modelRun ([] : List α) ops)[i]) ∧
      front (run (mkDeque α ic c) ops) = (modelRun ([] : List α) ops).head?.map some ∧
      back (run (mkDeque α ic c) ops) = (modelRun ([] : List α) ops).getLast?.map some := by
  obtain ⟨v, m⟩ := run_spec ops (mkDeque_valid c hic hicle hc) (mkDeque_models ic c) hleg
  have hlen := modelRun_length hleg
  refine ⟨?_, m.2, front_models v m, back_models v m⟩
  rw [m.1]
  simp only [List.length_nil, Nat.zero_add] at hlen
  omega

theorem c1_witness :
    IsPow2 1 ∧ (1 : Nat) ≤ U32 ∧
      legalFrom ([] : List Nat) [Op.pushB 1, Op.pushB 2, Op.pushF 0] ∧
      (size (run (mkDeque Nat 1 1) [Op.pushB 1, Op.pushB 2, Op.pushF 0]) =
          countPushes [Op.pushB (1 : Nat), Op.pushB 2, Op.pushF 0] -
            countPops [Op.pushB (1 : Nat), Op.pushB 2, Op.pushF 0] ∧
        (∀ i : Nat,
          (h : i < (modelRun ([] : List Nat) [Op.pushB 1, Op.pushB 2, Op.pushF 0]).length) →
          idx (run (mkDeque Nat 1 1) [Op.pushB 1, Op.pushB 2, Op.pushF 0]) i =
            some (modelRun ([] : List Nat) [Op.pushB 1, Op.pushB 2, Op.pushF 0])[i]) ∧
        front (run (mkDeque Nat 1 1) [Op.pushB 1, Op.pushB 2, Op.pushF 0]) =
          (modelRun ([] : List Nat) [Op.pushB 1, Op.pushB 2, Op.pushF 0]).head?.map some ∧
        back (run (mkDeque Nat 1 1) [Op.pushB 1, Op.pushB 2, Op.pushF 0]) =
          (modelRun ([] : List Nat) [Op.pushB 1, Op.pushB 2, Op.pushF 0]).getLast?.map some) :=
  ⟨⟨0, rfl⟩, by norm_num [U32], by norm_num [legalFrom, modelStep, max_size, U32],
    c1_push_pop_fifo 1 1 [Op.pushB 1, Op.pushB 2, Op.pushF 0] ⟨0, rfl⟩
      (by norm_num [U32]) (by norm_num [U32])
      (by norm_num [legalFrom, modelStep, max_size, U32])⟩

/-- **C9** For every requested initial capacity `c` (and `InlineCapacity` a
power of two, per the template's `static_assert`), a queue constructed with
capacity argument `c` has `capacity() = max(InlineCapacity,
next_power_of_two(c))`; in particular, `c = 11` with the default inline
capacity `1` yields capacity 16, and `c = 11` with inline capacity 32 yields
capacity 32. -/
theorem c9_ctor_capacity (ic c : Nat) (hic : IsPow2 ic) :
    (mkDeque α ic c).capacity = Max.max ic (nextPow2 c) ∧
      (mkDeque α 1 11).capacity = 16 ∧ (mkDeque α 32 11).capacity = 32 := by
  have hmain : ∀ (j cc : Nat), IsPow2 j → (mkDeque α j cc).capacity = Max.max j (nextPow2 cc) := by
    intro j cc hj
    rw [mkDeque_capacity]
    by_cases hlt : j < cc
    · rw [if_pos hlt, roundUp_one_eq_nextPow2]
      have hge : cc ≤ nextPow2 cc := by
        rw [← roundUp_one_eq_nextPow2]
        exact roundUp_ge 1 cc one_pos
      rw [Nat.max_eq_right (by omega)]
    · rw [if_neg hlt]
      push_neg at hlt
      obtain ⟨k, hk⟩ := hj
      have hle : nextPow2 cc ≤ j := by
        rw [nextPow2, hk]
        exact Nat.pow_le_pow_right (by omega)
          ((Nat.le_pow_iff_clog_le one_lt_two).1 (hk ▸ hlt))
      rw [Nat.max_eq_left hle]
  have h16 : nextPow2 11 = 16 := by
    rw [← roundUp_one_eq_nextPow2]
    rw [roundUp]; norm_num
    rw [roundUp]; norm_num
    rw [roundUp]; norm_num
    rw [roundUp]; norm_num
    rw [roundUp]; norm_num
  refine ⟨hmain ic c hic, ?_, ?_⟩
  · rw [hmain 1 11 ⟨0, rfl⟩, h16]
    omega
  · rw [hmain 32 11 ⟨5, rfl⟩, h16]
    omega

theorem c9_witness :
    IsPow2 1 ∧
      ((mkDeque Nat 1 11).capacity = Max.max 1 (nextPow2 11) ∧
        (mkDeque Nat 1 11).capacity = 16 ∧ (mkDeque Nat 32 11).capacity = 32) :=
  ⟨⟨0, rfl⟩, c9_ctor_capacity 1 11 ⟨0, rfl⟩⟩

/-- **C8** `front()`, `back()`, `pop_front()` and `pop_back()` signal an
out-of-range error exactly when the queue is empty, and `at(i)` signals an
out-of-range error exactly when `i ≥ size()`.  In this embedding an error is
the `none` result; the check precedes any mutation in the source, so an error
leaves the queue unchanged — the erroring operations return no new state. -/
theorem c8_error_conditions (q : Deque α) :
    (front q = none ↔ size q = 0) ∧
      (back q = none ↔ size q = 0) ∧
      (pop_front q = none ↔ size q = 0) ∧
      (pop_back q = none ↔ size q = 0) ∧
      (∀ i : Nat, at' q i = none ↔ size q ≤ i) := by
  refine ⟨?_, ?_, ?_, ?_, ?_⟩
  · unfold front
    split <;> simp_all
  · unfold back
    split <;> simp_all
  · unfold pop_front
    split <;> simp_all
  · unfold pop_back
    split <;> simp_all
  · intro i
    unfold at'
    split <;> simp_all

/-! ## Reachable states and the capacity invariant -/

/-- The queue states reachable through the public interface: construction,
pushes, pops, positional insert/erase, `clear`, `shrink_to_fit`, copy
construction/assignment (`clone_from`), and both sides of a move
(`move_from`). -/
inductive Reachable (ic : Nat) : Deque α → Prop where
  | init (c : Nat) : Reachable ic (mkDeque α ic c)
  | pushF (q : Deque α) (x : α) : Reachable ic q → Reachable ic (push_front q x)
  | pushB (q : Deque α) (x : α) : Reachable ic q → Reachable ic (push_back q x)
  | popF (q q' : Deque α) : Reachable ic q → pop_front q = some q' → Reachable ic q'
  | popB (q q' : Deque α) : Reachable ic q → pop_back q = some q' → Reachable ic q'
  | ins (q : Deque α) (pos n : Nat) (x : α) : Reachable ic q → Reachable ic (insert q pos n x).1
  | ins1 (q : Deque α) (pos : Nat) (x : α) : Reachable ic q → Reachable ic (insert1 q pos x).1
  | ers (q : Deque α) (first last : Nat) : Reachable ic q → Reachable ic (erase q first last).1
  | clr (q : Deque α) : Reachable ic q → Reachable ic (clear q)
  | stf (q : Deque α) : Reachable ic q → Reachable ic (shrink_to_fit q)
  | cln (q : Deque α) : Reachable ic q → Reachable ic (clone_from q)
  | mvD (q : Deque α) : Reachable ic q → Reachable ic (move_from q).1
  | mvS (q : Deque α) : Reachable ic q → Reachable ic (move_from q).2

/-- The capacity-level invariant: power-of-two capacity at least
`InlineCapacity`, with the `InlineCapacity` field intact. -/
def CapOK (ic : Nat) (q : Deque α) : Prop :=
  IsPow2 q.capacity ∧ ic ≤ q.capacity ∧ q.ic = ic

theorem foldl_cap {β : Type} (f : Deque α → β → Deque α)
    (hf : ∀ (qq : Deque α) (b : β), (f qq b).capacity = qq.capacity ∧ (f qq b).ic = qq.ic)
    (l : List β) (q : Deque α) :
    (l.foldl f q).capacity = q.capacity ∧ (l.foldl f q).ic = q.ic := by
  induction l generalizing q with
  | nil => exact ⟨rfl, rfl⟩
  | cons b rest ih =>
    have h1 := hf q b
    have h2 := ih (f q b)
    exact ⟨h2.1.trans h1.1, h2.2.trans h1.2⟩

theorem resize_cap_ok {ic : Nat} {q : Deque α} (hic : IsPow2 ic) (hq : q.ic = ic)
    {nc : Nat} (hnc : IsPow2 nc ∨ nc = 0) : CapOK ic (resize q nc) := by
  refine ⟨?_, ?_, by rw [resize_ic, hq]⟩
  · rw [resize_capacity, hq]
    rcases hnc with hp | h0
    · exact hp.max hic
    · rw [h0]
      simpa using hic
  · rw [resize_capacity, hq]
    exact le_max_right _ _

theorem pow2_double_mod {n : Nat} (h : IsPow2 n) :
    (n * 2) % U32 = 0 ∨ IsPow2 ((n * 2) % U32) := by
  obtain ⟨k, rfl⟩ := h
  have hdouble : 2 ^ k * 2 = 2 ^ (k + 1) := by ring
  by_cases hk : k + 1 < 32
  · right
    rw [hdouble, Nat.mod_eq_of_lt (by
      simpa [U32] using Nat.pow_lt_pow_right (a := 2) one_lt_two hk)]
    exact ⟨k + 1, rfl⟩
  · left
    rw [hdouble]
    have hdvd : U32 ∣ 2 ^ (k + 1) := by
      simp only [U32]
      exact pow_dvd_pow 2 (by omega)
    obtain ⟨c, hc⟩ := hdvd
    rw [hc]
    exact Nat.mul_mod_right U32 c

theorem overflow_cap_ok {ic : Nat} {q : Deque α} (hic : IsPow2 ic) (hq : q.ic = ic)
    (hcap : IsPow2 q.capacity) : CapOK ic (overflow q) := by
  simp only [overflow]
  by_cases hne : (q.capacity * 2) % U32 ≠ 0
  · rw [if_pos hne]
    rcases pow2_double_mod hcap with h0 | hp
    · exact absurd h0 hne
    · exact resize_cap_ok hic hq (Or.inl hp)
  · rw [if_neg hne]
    exact resize_cap_ok hic hq (Or.inl IsPow2.one)

theorem shrink_to_fit_cap_ok {ic : Nat} {q : Deque α} (hic : IsPow2 ic) (hq : q.ic = ic)
    (hcap : IsPow2 q.capacity) (hle : ic ≤ q.capacity) : CapOK ic (shrink_to_fit q) := by
  unfold shrink_to_fit
  by_cases hlt : shrinkCandidate q.capacity (size q * 2 % U32) < q.capacity
  · rw [if_pos hlt]
    rcases shrinkCandidate_pow (size q * 2 % U32) q.capacity hcap with hp | h0
    · exact resize_cap_ok hic hq (Or.inl hp)
    · exact resize_cap_ok hic hq (Or.inr h0)
  · rw [if_neg hlt]
    exact ⟨hcap, hle, hq⟩

theorem shrink_cap_ok {ic : Nat} {q : Deque α} (hic : IsPow2 ic) (hq : q.ic = ic)
    (hcap : IsPow2 q.capacity) (hle : ic ≤ q.capacity) : CapOK ic (shrink q) := by
  unfold shrink
  split
  · exact shrink_to_fit_cap_ok hic hq hcap hle
  · exact ⟨hcap, hle, hq⟩

/-- Generic loop invariant for `foldl`. -/
theorem foldl_inv {σ β : Type} (P : σ → Prop) (f : σ → β → σ)
    (hf : ∀ s b, P s → P (f s b)) :
    ∀ (l : List β) (s : σ), P s → P (l.foldl f s) := by
  intro l
  induction l with
  | nil => exact fun s hs => hs
  | cons b rest ih => exact fun s hs => ih (f s b) (hf s b hs)

/-- A step that keeps the `capacity` and `ic` fields keeps `CapOK`. -/
theorem CapOK.of_eq {ic : Nat} {q q' : Deque α} (h : CapOK ic q)
    (hcap : q'.capacity = q.capacity) (hicq : q'.ic = q.ic) : CapOK ic q' := by
  refine ⟨?_, ?_, ?_⟩
  · rw [hcap]; exact h.1
  · rw [hcap]; exact h.2.1
  · rw [hicq]; exact h.2.2

theorem push_back_cap_ok {ic : Nat} {q : Deque α} (x : α) (h : CapOK ic q)
    (hic : IsPow2 ic) : CapOK ic (push_back q x) := by
  obtain ⟨hcap, hle, hq⟩ := h
  have h1 : CapOK ic (if size q = q.capacity then overflow q else q) := by
    split
    · exact overflow_cap_ok hic hq hcap
    · exact ⟨hcap, hle, hq⟩
  have hceq : (push_back q x).capacity =
      (if size q = q.capacity then overflow q else q).capacity := by
    simp only [push_back, construct, write_slot]
  have hiceq : (push_back q x).ic =
      (if size q = q.capacity then overflow q else q).ic := by
    simp only [push_back, construct, write_slot]
  exact h1.of_eq hceq hiceq

theorem push_front_cap_ok {ic : Nat} {q : Deque α} (x : α) (h : CapOK ic q)
    (hic : IsPow2 ic) : CapOK ic (push_front q x) := by
  obtain ⟨hcap, hle, hq⟩ := h
  have h1 : CapOK ic (if size q = q.capacity then overflow q else q) := by
    split
    · exact overflow_cap_ok hic hq hcap
    · exact ⟨hcap, hle, hq⟩
  have hceq : (push_front q x).capacity =
      (if size q = q.capacity then overflow q else q).capacity := by
    simp only [push_front, construct, write_slot]
  have hiceq : (push_front q x).ic =
      (if size q = q.capacity then overflow q else q).ic := by
    simp only [push_front, construct, write_slot]
  exact h1.of_eq hceq hiceq

theorem pop_front_cap_ok {ic : Nat} {q q' : Deque α} (h : CapOK ic q) (hic : IsPow2 ic)
    (hp : pop_front q = some q') : CapOK ic q' := by
  obtain ⟨hcap, hle, hq⟩ := h
  by_cases hne : size q = 0
  · simp [pop_front, hne] at hp
  · simp only [pop_front, if_neg hne] at hp
    have heq := Option.some.inj hp
    rw [← heq]
    refine shrink_cap_ok hic ?_ ?_ ?_
    · simp only [destroy, write_slot]
      exact hq
    · simp only [destroy, write_slot]
      exact hcap
    · simp only [destroy, write_slot]
      exact hle

theorem pop_back_cap_ok {ic : Nat} {q q' : Deque α} (h : CapOK ic q) (hic : IsPow2 ic)
    (hp : pop_back q = some q') : CapOK ic q' := by
  obtain ⟨hcap, hle, hq⟩ := h
  by_cases hne : size q = 0
  · simp [pop_back, hne] at hp
  · simp only [pop_back, if_neg hne] at hp
    have heq := Option.some.inj hp
    rw [← heq]
    refine shrink_cap_ok hic ?_ ?_ ?_
    · simp only [destroy, write_slot]
      exact hq
    · simp only [destroy, write_slot]
      exact hcap
    · simp only [destroy, write_slot]
      exact hle

theorem growCap_pow {a : Nat} (needed : Nat) (hp : IsPow2 a) : IsPow2 (growCap a needed) := by
  rw [growCap]
  split
  · exact growCap_pow needed hp.double
  · exact hp
termination_by needed - a
decreasing_by omega

theorem make_space_cap_ok {ic : Nat} {q : Deque α} (pos count : Nat) (h : CapOK ic q)
    (hic : IsPow2 ic) : CapOK ic (make_space q pos count).1 := by
  obtain ⟨hcap, hle, hq⟩ := h
  simp only [make_space]
  by_cases hc0 : count = 0
  · rw [if_pos hc0]
    exact ⟨hcap, hle, hq⟩
  · rw [if_neg hc0]
    have hcpos : 1 ≤ q.capacity := le_trans hic.pos hle
    have hgrow : IsPow2 (growCap (Max.max 1 q.capacity * 2) ((size q + count) % U32)) := by
      apply growCap_pow
      rw [Nat.max_eq_right hcpos]
      exact hcap.double
    have h1 : CapOK ic (if q.capacity < (size q + count) % U32 then
        resize q (growCap (Max.max 1 q.capacity * 2) ((size q + count) % U32)) else q) := by
      split
      · exact resize_cap_ok hic hq (Or.inl hgrow)
      · exact ⟨hcap, hle, hq⟩
    set q1 := if q.capacity < (size q + count) % U32 then
        resize q (growCap (Max.max 1 q.capacity * 2) ((size q + count) % U32)) else q with hq1
    have h2 : CapOK ic ({ q1 with write := (q1.write + count) % U32 } : Deque α) :=
      h1.of_eq rfl rfl
    refine foldl_inv (CapOK ic) _ ?_ _ _ h2
    intro s b hs
    exact hs.of_eq (by simp only [moveStep, destroy, write_slot]) (by simp only [moveStep, destroy, write_slot])

theorem insert_cap_ok {ic : Nat} {q : Deque α} (pos n : Nat) (x : α) (h : CapOK ic q)
    (hic : IsPow2 ic) : CapOK ic (insert q pos n x).1 := by
  have h1 := make_space_cap_ok pos n h hic
  simp only [insert]
  refine foldl_inv (CapOK ic) _ ?_ _ _ h1
  intro s b hs
  exact hs.of_eq (by simp only [construct, write_slot]) (by simp only [construct, write_slot])

theorem insert1_cap_ok {ic : Nat} {q : Deque α} (pos : Nat) (x : α) (h : CapOK ic q)
    (hic : IsPow2 ic) : CapOK ic (insert1 q pos x).1 := by
  have h1 := make_space_cap_ok pos 1 h hic
  simp only [insert1]
  exact h1.of_eq (by simp only [construct, write_slot]) (by simp only [construct, write_slot])

theorem erase_cap_ok {ic : Nat} {q : Deque α} (first last : Nat) (h : CapOK ic q) :
    CapOK ic (erase q first last).1 := by
  simp only [erase]
  by_cases hc0 : sub32 last first = 0
  · rw [if_pos hc0]
    exact h
  · rw [if_neg hc0]
    have h1 : CapOK ic ((List.range (sub32 q.write ((q.read + last) % U32))).foldl
        (fun qq k => write_slot qq (sub32 ((q.read + last + k) % U32) (sub32 last first))
          (slot qq ((q.read + last + k) % U32))) q) := by
      refine foldl_inv (CapOK ic) _ ?_ _ _ h
      intro s b hs
      exact hs.of_eq (by simp only [write_slot]) (by simp only [write_slot])
    refine foldl_inv (CapOK ic) _ ?_ _ _ (h1.of_eq rfl rfl)
    intro s b hs
    exact hs.of_eq (by simp only [destroy, write_slot]) (by simp only [destroy, write_slot])

theorem clearLoop_cap_ok {ic : Nat} (fuel : Nat) {q : Deque α} (h : CapOK ic q)
    (hic : IsPow2 ic) : CapOK ic (clearLoop fuel q) := by
  induction fuel generalizing q with
  | zero => exact h
  | succ n ih =>
    simp only [clearLoop]
    cases hp : pop_front q with
    | none => exact h
    | some q' => exact ih (pop_front_cap_ok h hic hp)

theorem clear_cap_ok {ic : Nat} {q : Deque α} (h : CapOK ic q) (hic : IsPow2 ic) :
    CapOK ic (clear q) := clearLoop_cap_ok (size q) h hic

theorem clone_cap_ok {ic : Nat} {q : Deque α} (h : CapOK ic q) :
    CapOK ic (clone_from q) := by
  simp only [clone_from]
  refine foldl_inv (CapOK ic) _ ?_ _ _ (h.of_eq rfl rfl)
  intro s b hs
  exact hs.of_eq (by simp only [write_slot]) (by simp only [write_slot])

theorem move_from_dst_cap_ok {ic : Nat} {q : Deque α} (h : CapOK ic q) :
    CapOK ic (move_from q).1 := by
  simp only [move_from]
  by_cases hinline : q.capacity = q.ic
  · rw [if_pos hinline]
    refine foldl_inv (fun p : Deque α × Deque α => CapOK ic p.1) _ ?_ _ _ ?_
    · intro s b hs
      exact hs.of_eq (by simp only [write_slot]) (by simp only [write_slot])
    · exact h.of_eq rfl rfl
  · rw [if_neg hinline]
    exact h.of_eq rfl rfl

theorem move_from_src_cap_ok {ic : Nat} {q : Deque α} (h : CapOK ic q) (hic : IsPow2 ic) :
    CapOK ic (move_from q).2 := by
  simp only [move_from]
  by_cases hinline : q.capacity = q.ic
  · rw [if_pos hinline]
    have hfold : ((List.range (size q)).foldl
        (fun (p : Deque α × Deque α) i =>
          (write_slot p.1 (ptr_read p.1 i) (slot p.2 (ptr_read p.2 i)),
           destroy p.2 (ptr_read p.2 i)))
        ({ ic := q.ic, capacity := q.capacity, read := q.read, write := q.write,
           data := fun _ => none }, q)).2.ic = ic := by
      refine foldl_inv (fun p : Deque α × Deque α => p.2.ic = ic) _ ?_ _ _ h.2.2
      intro s b hs
      simpa only [destroy, write_slot] using hs
    refine ⟨?_, ?_, ?_⟩
    · show IsPow2 q.ic
      rw [h.2.2]
      exact hic
    · show ic ≤ q.ic
      rw [h.2.2]
    · exact hfold
  · rw [if_neg hinline]
    refine ⟨?_, ?_, ?_⟩
    · show IsPow2 q.ic
      rw [h.2.2]
      exact hic
    · show ic ≤ q.ic
      rw [h.2.2]
    · show q.ic = ic
      exact h.2.2

theorem mkDeque_cap_ok {ic : Nat} (hic : IsPow2 ic) (c : Nat) :
    CapOK ic (mkDeque α ic c) := by
  by_cases hlt : ic < c
  · simp only [mkDeque, if_pos hlt]
    exact ⟨roundUp_pow c IsPow2.one, le_trans (by omega) (roundUp_ge 1 c one_pos), rfl⟩
  · simp only [mkDeque, if_neg hlt]
    exact ⟨hic, le_refl ic, rfl⟩

theorem reachable_cap_ok {ic : Nat} {q : Deque α} (hic : IsPow2 ic)
    (hr : Reachable ic q) : CapOK ic q := by
  induction hr with
  | init c => exact mkDeque_cap_ok hic c
  | pushF q x _ ih => exact push_front_cap_ok x ih hic
  | pushB q x _ ih => exact push_back_cap_ok x ih hic
  | popF q q' _ hp ih => exact pop_front_cap_ok ih hic hp
  | popB q q' _ hp ih => exact pop_back_cap_ok ih hic hp
  | ins q pos n x _ ih => exact insert_cap_ok pos n x ih hic
  | ins1 q pos x _ ih => exact insert1_cap_ok pos x ih hic
  | ers q first last _ ih => exact erase_cap_ok first last ih
  | clr q _ ih => exact clear_cap_ok ih hic
  | stf q _ ih => exact shrink_to_fit_cap_ok hic ih.2.2 ih.1 ih.2.1
  | cln q _ ih => exact clone_cap_ok ih
  | mvD q _ ih => exact move_from_dst_cap_ok ih
  | mvS q _ ih => exact move_from_src_cap_ok ih hic

/-- **C2 (amended)** Provided `InlineCapacity` is a *nonzero* power of two,
after construction and after every public operation (push, pop, insert,
erase, clear, shrink_to_fit, copy/move construct/assign — every state in
`Reachable`), `capacity()` is a power of two and `capacity() ≥
InlineCapacity`.  (For the supported degenerate instantiation
`InlineCapacity = 0` this fails: see the counterexample.) -/
theorem c2_capacity_power_of_two (ic : Nat) (q : Deque α) (hic : IsPow2 ic)
    (hr : Reachable ic q) : IsPow2 q.capacity ∧ ic ≤ q.capacity := by
  have h := reachable_cap_ok hic hr
  exact ⟨h.1, h.2.1⟩

theorem c2_witness :
    IsPow2 1 ∧ Reachable 1 (push_back (mkDeque Nat 1 1) 5) ∧
      (IsPow2 (push_back (mkDeque Nat 1 1) 5).capacity ∧
        1 ≤ (push_back (mkDeque Nat 1 1) 5).capacity) :=
  ⟨⟨0, rfl⟩, Reachable.pushB _ 5 (Reachable.init 1),
    c2_capacity_power_of_two 1 (push_back (mkDeque Nat 1 1) 5) ⟨0, rfl⟩
      (Reachable.pushB _ 5 (Reachable.init 1))⟩

/-- **C2 counterexample** The claim as stated fails for the supported
instantiation `InlineCapacity = 0` (explicitly admitted by the template's
`static_assert`): a default-constructed queue then has `capacity() = 0`,
which is not a power of two. -/
theorem c2_counterexample :
    (mkDeque Nat 0 0).capacity = 0 ∧ ¬ IsPow2 ((mkDeque Nat 0 0).capacity) := by
  have h0 : (mkDeque Nat 0 0).capacity = 0 := rfl
  refine ⟨h0, ?_⟩
  rw [h0]
  rintro ⟨k, hk⟩
  have : 0 < 2 ^ k := Nat.pos_pow_of_pos k (by omega)
  omega

/-! ## The shrink policy (claims C5 and C7) -/

/-- The halving loop exits with either 0 or a value at most `t`
(when it ran at all) or the unchanged start value (when `n ≤ t` already). -/
theorem shrinkCandidate_exit (n t : Nat) :
    shrinkCandidate n t = 0 ∨ shrinkCandidate n t ≤ t ∨
      (shrinkCandidate n t = n ∧ n ≤ t) := by
  induction n using Nat.strong_induction_on with
  | _ n ih =>
    by_cases hcond : n ≠ 0 ∧ t < n
    · have hstep : shrinkCandidate n t = shrinkCandidate (n / 2) t := by
        conv_lhs => rw [shrinkCandidate]
        rw [dif_pos hcond]
      have hlt : n / 2 < n := Nat.div_lt_self (Nat.pos_of_ne_zero hcond.1) one_lt_two
      rw [hstep]
      rcases ih (n / 2) hlt with h0 | hle | ⟨heq, hle2⟩
      · exact Or.inl h0
      · exact Or.inr (Or.inl hle)
      · exact Or.inr (Or.inl (by rw [heq]; exact hle2))
    · have hstep : shrinkCandidate n t = n := by
        conv_lhs => rw [shrinkCandidate]
        rw [dif_neg hcond]
      rw [hstep]
      push_neg at hcond
      by_cases h0 : n = 0
      · exact Or.inl h0
      · exact Or.inr (Or.inr ⟨rfl, hcond h0⟩)

/-- A concrete queue with `InlineCapacity = 1`, capacity 16 and 4 elements
(9 `push_back`s grow the capacity to 16; erasing the first five leaves 4
elements without shrinking). -/
def c5Queue : Deque Nat :=
  (erase ((List.range 9).foldl (fun q i => push_back q i) (mkDeque Nat 1 1)) 0 5).1

/-- **C5 counterexample** The claim fails on the code: for a queue with
`InlineCapacity = 1`, capacity 16 and 4 elements, `shrink_to_fit()` leaves
capacity 8, while `max(InlineCapacity, next_power_of_two(size)) = 4`.  The
halving loop stops as soon as the capacity is at most `2·size`, one doubling
above the smallest power of two ≥ size whenever size is a power of two. -/
theorem c5_counterexample :
    size c5Queue = 4 ∧ c5Queue.ic = 1 ∧ c5Queue.capacity = 16 ∧
      (shrink_to_fit c5Queue).capacity = 8 ∧
      Max.max c5Queue.ic (nextPow2 (size c5Queue)) = 4 ∧
      (shrink_to_fit c5Queue).capacity ≠
        Max.max c5Queue.ic (nextPow2 (size c5Queue)) := by
  have hsize : size c5Queue = 4 := by decide
  have hic : c5Queue.ic = 1 := by decide
  have hcap : c5Queue.capacity = 16 := by decide
  have hread : c5Queue.read = 0 := by decide
  have ht : (size c5Queue * 2) % U32 = 8 := by
    rw [hsize]
    norm_num [U32]
  have hsc : shrinkCandidate c5Queue.capacity ((size c5Queue * 2) % U32) = 8 := by
    rw [hcap, ht]
    rw [shrinkCandidate]; norm_num
    rw [shrinkCandidate]; norm_num
  have hstf : (shrink_to_fit c5Queue).capacity = 8 := by
    simp only [shrink_to_fit]
    rw [hsc, hcap]
    norm_num
    rw [resize_capacity, hic]
    omega
  have hnp : nextPow2 4 = 4 := by
    rw [← roundUp_one_eq_nextPow2]
    rw [roundUp]; norm_num
    rw [roundUp]; norm_num
    rw [roundUp]; norm_num
  refine ⟨hsize, hic, hcap, hstf, ?_, ?_⟩
  · rw [hic, hsize, hnp]
    omega
  · rw [hic, hsize, hnp, hstf]
    omega

/-- **C5 (amended)** After `shrink_to_fit()` the elements and their order are
unchanged, and the capacity is the previous capacity repeatedly halved while
it exceeds `2·size()` (clamped below by `InlineCapacity`, never increased):
at most `max(InlineCapacity, 2·size())` — i.e. up to one doubling above the
smallest power of two ≥ size, not necessarily equal to it. -/
theorem c5_shrink_to_fit_capacity {ic : Nat} {q : Deque α} {l : List α}
    (v : Valid ic q) (m : Models q l) :
    Models (shrink_to_fit q) l ∧
      size (shrink_to_fit q) = size q ∧
      (shrink_to_fit q).capacity ≤ q.capacity ∧
      ic ≤ (shrink_to_fit q).capacity ∧
      IsPow2 (shrink_to_fit q).capacity ∧
      (1 ≤ size q →
        size q ≤ (shrink_to_fit q).capacity ∧
        (shrink_to_fit q).capacity ≤ Max.max ic (2 * size q)) := by
  obtain ⟨v', m', hle⟩ := shrink_to_fit_spec v m
  have hcapok := shrink_to_fit_cap_ok v.ic_pow v.ic_eq v.cap_pow v.ic_le
  have hsz : size (shrink_to_fit q) = size q := by
    rw [m'.1, m.1]
  refine ⟨m', hsz, hle, hcapok.2.1, hcapok.1, ?_⟩
  intro hs1
  refine ⟨by rw [← hsz]; exact v'.size_cap, ?_⟩
  have ht : (size q * 2) % U32 = 2 * size q := by
    have hsm := v.size_max
    have : 2 * size q < U32 := by
      simp only [max_size, U32] at *
      omega
    rw [Nat.mod_eq_of_lt (by omega)]
    omega
  simp only [shrink_to_fit, ht]
  rcases shrinkCandidate_exit q.capacity (2 * size q) with h0 | hle2 | ⟨heq, hle3⟩
  · have := shrinkCandidate_ge hs1 v.size_cap
    omega
  · split
    · rw [resize_capacity, v.ic_eq]
      omega
    · next hnlt =>
      push_neg at hnlt
      have h1 : shrinkCandidate q.capacity (2 * size q) ≤ q.capacity :=
        shrinkCandidate_le _ _
      have : q.capacity ≤ 2 * size q := by omega
      omega
  · rw [heq]
    rw [if_neg (by omega)]
    omega

theorem c5_witness :
    ∃ v : Valid 1 (push_back (mkDeque Nat 1 1) 7),
      ∃ m : Models (push_back (mkDeque Nat 1 1) 7) [7],
      Models (shrink_to_fit (push_back (mkDeque Nat 1 1) 7)) [7] ∧
        size (shrink_to_fit (push_back (mkDeque Nat 1 1) 7)) =
          size (push_back (mkDeque Nat 1 1) 7) ∧
        (shrink_to_fit (push_back (mkDeque Nat 1 1) 7)).capacity ≤
          (push_back (mkDeque Nat 1 1) 7).capacity ∧
        1 ≤ (shrink_to_fit (push_back (mkDeque Nat 1 1) 7)).capacity ∧
        IsPow2 (shrink_to_fit (push_back (mkDeque Nat 1 1) 7)).capacity ∧
        (1 ≤ size (push_back (mkDeque Nat 1 1) 7) →
          size (push_back (mkDeque Nat 1 1) 7) ≤
            (shrink_to_fit (push_back (mkDeque Nat 1 1) 7)).capacity ∧
          (shrink_to_fit (push_back (mkDeque Nat 1 1) 7)).capacity ≤
            Max.max 1 (2 * size (push_back (mkDeque Nat 1 1) 7))) := by
  have v0 : Valid 1 (mkDeque Nat 1 1) :=
    mkDeque_valid 1 ⟨0, rfl⟩ (by norm_num [U32]) (by norm_num [U32])
  have m0 : Models (mkDeque Nat 1 1) [] := mkDeque_models 1 1
  obtain ⟨v1, m1⟩ := push_back_spec v0 m0 7 (by norm_num [max_size, U32])
  exact ⟨v1, by simpa using m1, c5_shrink_to_fit_capacity v1 (by simpa using m1)⟩

/-- **C7** After every `pop_front`/`pop_back` (each of which ends in a call
to `shrink()` on the post-removal state), a capacity shrink is attempted only
when the logical read position after masking, `read & (capacity - 1)`, is 0
(the guard requires the raw `read_` counter to be 0, which forces the masked
position to be 0); when the capacity actually changes, the candidate —
the capacity repeatedly halved while nonzero and above `2·size` — was
strictly smaller than the current capacity and becomes the new capacity
(clamped below by `InlineCapacity`), and the capacity never drops below
`InlineCapacity`. -/
theorem c7_shrink_policy {ic : Nat} {q : Deque α} (v : Valid ic q) :
    (shrink q ≠ q → q.read &&& (q.capacity - 1) = 0) ∧
      ((shrink q).capacity ≠ q.capacity →
        shrinkCandidate q.capacity ((size q * 2) % U32) < q.capacity ∧
          (shrink q).capacity =
            Max.max ic (shrinkCandidate q.capacity ((size q * 2) % U32))) ∧
      ic ≤ (shrink q).capacity ∧
      (∀ q', pop_front q = some q' →
        ∃ qmid : Deque α, q' = shrink qmid ∧ qmid.capacity = q.capacity ∧
          qmid.read = (q.read + 1) % U32) ∧
      (∀ q', pop_back q = some q' →
        ∃ qmid : Deque α, q' = shrink qmid ∧ qmid.capacity = q.capacity ∧
          qmid.read = q.read) := by
  refine ⟨?_, ?_, ?_, ?_, ?_⟩
  · intro hne
    by_cases hguard : ptr_read q 0 = 0 ∧ (size q * 2) % U32 < q.capacity
    · have hr0 : q.read = 0 := by
        have := hguard.1
        simp only [ptr_read, Nat.add_zero] at this
        rw [Nat.mod_eq_of_lt v.read_lt] at this
        exact this
      rw [hr0]
      exact Nat.zero_and _
    · exact absurd (by simp only [shrink, if_neg hguard]) hne
  · intro hcapne
    by_cases hguard : ptr_read q 0 = 0 ∧ (size q * 2) % U32 < q.capacity
    · rw [shrink, if_pos hguard] at hcapne ⊢
      by_cases hlt : shrinkCandidate q.capacity ((size q * 2) % U32) < q.capacity
      · refine ⟨hlt, ?_⟩
        simp only [shrink_to_fit]
        rw [if_pos hlt, resize_capacity, v.ic_eq]
        rw [Nat.max_comm]
      · exact absurd (by simp only [shrink_to_fit]; rw [if_neg hlt]) hcapne
    · exact absurd (by rw [shrink, if_neg hguard]) hcapne
  · exact (shrink_cap_ok v.ic_pow v.ic_eq v.cap_pow v.ic_le).2.1
  · intro q' hp
    by_cases hne : size q = 0
    · simp [pop_front, hne] at hp
    · simp only [pop_front, if_neg hne] at hp
      refine ⟨_, (Option.some.inj hp).symm, ?_, ?_⟩
      · simp only [destroy, write_slot]
      · simp only [destroy, write_slot]
  · intro q' hp
    by_cases hne : size q = 0
    · simp [pop_back, hne] at hp
    · simp only [pop_back, if_neg hne] at hp
      refine ⟨_, (Option.some.inj hp).symm, ?_, ?_⟩
      · simp only [destroy, write_slot]
      · simp only [destroy, write_slot]

theorem c7_witness :
    ∃ v : Valid 1 (push_back (mkDeque Nat 1 1) 3),
      (shrink (push_back (mkDeque Nat 1 1) 3) ≠ push_back (mkDeque Nat 1 1) 3 →
        (push_back (mkDeque Nat 1 1) 3).read &&&
          ((push_back (mkDeque Nat 1 1) 3).capacity - 1) = 0) ∧
      ((shrink (push_back (mkDeque Nat 1 1) 3)).capacity ≠
          (push_back (mkDeque Nat 1 1) 3).capacity →
        shrinkCandidate (push_back (mkDeque Nat 1 1) 3).capacity
            ((size (push_back (mkDeque Nat 1 1) 3) * 2) % U32) <
          (push_back (mkDeque Nat 1 1) 3).capacity ∧
        (shrink (push_back (mkDeque Nat 1 1) 3)).capacity =
          Max.max 1 (shrinkCandidate (push_back (mkDeque Nat 1 1) 3).capacity
            ((size (push_back (mkDeque Nat 1 1) 3) * 2) % U32))) ∧
      1 ≤ (shrink (push_back (mkDeque Nat 1 1) 3)).capacity ∧
      (∀ q', pop_front (push_back (mkDeque Nat 1 1) 3) = some q' →
        ∃ qmid : Deque Nat, q' = shrink qmid ∧
          qmid.capacity = (push_back (mkDeque Nat 1 1) 3).capacity ∧
          qmid.read = ((push_back (mkDeque Nat 1 1) 3).read + 1) % U32) ∧
      (∀ q', pop_back (push_back (mkDeque Nat 1 1) 3) = some q' →
        ∃ qmid : Deque Nat, q' = shrink qmid ∧
          qmid.capacity = (push_back (mkDeque Nat 1 1) 3).capacity ∧
          qmid.read = (push_back (mkDeque Nat 1 1) 3).read) := by
  have v0 : Valid 1 (mkDeque Nat 1 1) :=
    mkDeque_valid 1 ⟨0, rfl⟩ (by norm_num [U32]) (by norm_num [U32])
  have m0 : Models (mkDeque Nat 1 1) [] := mkDeque_models 1 1
  obtain ⟨v1, m1⟩ := push_back_spec v0 m0 3 (by norm_num [max_size, U32])
  exact ⟨v1, c7_shrink_policy v1⟩

/-! ## `erase` (claim C4) -/

theorem sub32_sub_base {r s t : Nat} (hr : r < U32) (hs : s < U32) (ht : t ≤ s) :
    sub32 ((r + s) % U32) ((r + t) % U32) = s - t := by
  simp only [sub32, U32] at *
  omega

/-- Masked form of `slot(i - count)` for `i = (r + x) mod 2^32`, `count ≤ x`. -/
theorem sub32_mod_cap {cap : Nat} (hdvd : cap ∣ U32) {x c : Nat} (hcx : c ≤ x)
    (hcU : c < U32) : sub32 (x % U32) c % cap = (x - c) % cap := by
  have h1 : sub32 (x % U32) c = (x % U32 + (U32 - c)) % U32 := by
    simp only [sub32]
    rw [Nat.mod_eq_of_lt hcU]
  rw [h1, Nat.mod_mod_of_dvd _ hdvd, mod_cap_add hdvd]
  have h2 : x + (U32 - c) = x - c + U32 := by
    have : c < U32 := hcU
    omega
  rw [h2]
  obtain ⟨mm, hm⟩ := hdvd
  rw [hm, Nat.add_mul_mod_self_left]

/-- Masked form of `slot(ptr_write(k))` after `write_ -= count`. -/
theorem sub32_add_mod_cap {cap : Nat} (hdvd : cap ∣ U32) {r s c : Nat} (k : Nat)
    (hr : r < U32) (hs : s < U32) (hc : c ≤ s) (hcU : c < U32) :
    (sub32 ((r + s) % U32) c + k) % cap = (r + (s - c + k)) % cap := by
  have h1 : sub32 ((r + s) % U32) c = ((r + s) % U32 + (U32 - c)) % U32 := by
    simp only [sub32]
    rw [Nat.mod_eq_of_lt hcU]
  rw [h1, mod_cap_add hdvd, Nat.add_assoc, mod_cap_add hdvd]
  have h2 : r + s + (U32 - c + k) = r + (s - c + k) + U32 := by omega
  rw [h2]
  obtain ⟨mm, hm⟩ := hdvd
  rw [hm, Nat.add_mul_mod_self_left]

/-- `size` after `write_ -= c`. -/
theorem sub32_sub32 {r s c : Nat} (hr : r < U32) (hs : s < U32) (hc : c ≤ s) :
    sub32 (sub32 ((r + s) % U32) c) r = s - c := by
  simp only [sub32, U32] at *
  omega

/-- Bounded-element `foldl` invariant. -/
theorem foldl_inv_mem {σ β : Type} (P : σ → Prop) (f : σ → β → σ) (l : List β)
    (hf : ∀ s b, b ∈ l → P s → P (f s b)) :
    ∀ s : σ, P s → P (l.foldl f s) := by
  induction l with
  | nil => exact fun s hs => hs
  | cons b rest ih =>
    intro s hs
    exact ih (fun s2 b2 hb2 => hf s2 b2 (List.mem_cons_of_mem b hb2)) (f s b)
      (hf s b (List.mem_cons_self b rest) hs)

/-- The element-sliding loop of `erase`: after `k` iterations, positions
`[first, first + k)` hold the element from `count` slots further right, and
all other positions are untouched. -/
theorem erase_slide_inv {ic : Nat} {q : Deque α} {l : List α} (v : Valid ic q)
    (m : Models q l) (first last : Nat) (hfl : first ≤ last) (hls : last ≤ l.length) :
    ∀ k, k ≤ l.length - last →
      (((List.range k).foldl (fun qq kk =>
          write_slot qq (sub32 ((q.read + last + kk) % U32) (sub32 last first))
            (slot qq ((q.read + last + kk) % U32))) q).read = q.read ∧
       ((List.range k).foldl (fun qq kk =>
          write_slot qq (sub32 ((q.read + last + kk) % U32) (sub32 last first))
            (slot qq ((q.read + last + kk) % U32))) q).write = q.write ∧
       ((List.range k).foldl (fun qq kk =>
          write_slot qq (sub32 ((q.read + last + kk) % U32) (sub32 last first))
            (slot qq ((q.read + last + kk) % U32))) q).capacity = q.capacity ∧
       ((List.range k).foldl (fun qq kk =>
          write_slot qq (sub32 ((q.read + last + kk) % U32) (sub32 last first))
            (slot qq ((q.read + last + kk) % U32))) q).ic = q.ic ∧
       ∀ j : Nat, j < l.length →
         ((List.range k).foldl (fun qq kk =>
          write_slot qq (sub32 ((q.read + last + kk) % U32) (sub32 last first))
            (slot qq ((q.read + last + kk) % U32))) q).data
              ((q.read + j) % q.capacity) =
           if first ≤ j ∧ j < first + k then l[j + (last - first)]? else l[j]?) := by
  have hlen : l.length = size q := m.1.symm
  have hsU : l.length < U32 := by
    have := v.size_max
    have := max_size_lt
    omega
  have hlast : last < U32 := by omega
  have hcount : sub32 last first = last - first := sub32_eq_sub hfl hlast
  have hcap := v.cap_pos
  have hdvd := v.cap_dvd
  have hsc := v.size_cap
  intro k
  induction k with
  | zero =>
    intro _
    simp only [List.range_zero, List.foldl_nil]
    refine ⟨trivial, trivial, trivial, trivial, ?_⟩
    intro j hj
    rw [if_neg (by omega)]
    have hth := m.2 j hj
    rw [idx_eq_data_mod v j] at hth
    rw [hth, List.getElem?_eq_getElem hj]
  | succ k ih =>
    intro hk
    obtain ⟨hr, hw, hc, hi, hdata⟩ := ih (by omega)
    rw [List.range_succ, List.foldl_append, List.foldl_cons, List.foldl_nil]
    set qq := (List.range k).foldl (fun qq kk =>
        write_slot qq (sub32 ((q.read + last + kk) % U32) (sub32 last first))
          (slot qq ((q.read + last + kk) % U32))) q with hqq
    refine ⟨by rw [write_slot_read, hr], by rw [write_slot_write, hw],
      by rw [write_slot_capacity, hc], by rw [write_slot_ic, hi], ?_⟩
    intro j hj
    -- the written slot is the physical slot of logical position first + k,
    -- the value read is the element at logical position last + k
    have hsrc : slot qq ((q.read + last + k) % U32) = l[last + k]? := by
      simp only [slot]
      rw [hc, land_pred_pow2 v.cap_pow, Nat.mod_mod_of_dvd _ hdvd]
      have := hdata (last + k) (by omega)
      rw [if_neg (by omega)] at this
      rw [← Nat.add_assoc] at this
      exact this
    have htarget : sub32 ((q.read + last + k) % U32) (sub32 last first) %
        q.capacity = (q.read + (first + k)) % q.capacity := by
      rw [hcount, sub32_mod_cap hdvd (by omega) (by omega)]
      congr 1
      omega
    simp only [write_slot]
    rw [hc]
    simp only [land_pred_pow2 v.cap_pow]
    rw [htarget]
    by_cases hjk : j = first + k
    · subst hjk
      rw [if_pos rfl, hsrc, if_pos (by omega)]
      congr 1
      omega
    · rw [if_neg ?_]
      · have := hdata j hj
        rw [this]
        by_cases hin : first ≤ j ∧ j < first + k
        · rw [if_pos hin, if_pos (by omega)]
        · rw [if_neg hin, if_neg (by omega)]
      · intro hcontra
        have : j = first + k := phys_inj (by omega : j < q.capacity)
          (by omega : first + k < q.capacity) hcontra
        omega

/-- **C4** For every queue of size `s` and logical range `[first, last)` with
`first ≤ last ≤ s`: an empty range leaves the queue completely unchanged
(same state object, hence same elements, order, size and capacity); otherwise
the queue holds the original elements with positions `[first, last)` removed
and the survivors' relative order preserved, the size shrinks by
`last - first`, and in both cases the returned iterator is at logical
position `first`.  In particular `erase(begin(), end())` (that is,
`first = 0`, `last = s`) empties the queue. -/
theorem c4_erase {ic : Nat} {q : Deque α} {l : List α} (v : Valid ic q)
    (m : Models q l) (first last : Nat) (hfl : first ≤ last) (hls : last ≤ l.length) :
    (first = last → erase q first last = (q, first)) ∧
      (erase q first last).2 = first ∧
      Models (erase q first last).1 (l.take first ++ l.drop last) ∧
      size (erase q first last).1 = l.length - (last - first) ∧
      (erase q first last).1.capacity = q.capacity ∧
      Valid ic (erase q first last).1 := by
  have hlen : l.length = size q := m.1.symm
  have hsU : l.length < U32 := by
    have := v.size_max
    have := max_size_lt
    omega
  have hlast : last < U32 := by omega
  have hcount : sub32 last first = last - first := sub32_eq_sub hfl hlast
  have hcap := v.cap_pos
  have hdvd := v.cap_dvd
  have hlermodel : (l.take first ++ l.drop last).length = l.length - (last - first) := by
    rw [List.length_append, List.length_take, List.length_drop]
    omega
  by_cases h0 : first = last
  · have hc0 : sub32 last first = 0 := by omega
    have heq : erase q first last = (q, first) := by
      simp only [erase]
      rw [if_pos hc0]
    have h1 : (erase q first last).1 = q := by rw [heq]
    have h2 : (erase q first last).2 = first := by rw [heq]
    have hmodel : l.take first ++ l.drop last = l := by
      rw [← h0]
      exact List.take_append_drop first l
    refine ⟨fun _ => heq, h2, ?_, ?_, ?_, ?_⟩
    · rw [h1, hmodel]
      exact m
    · rw [h1, m.1]
      omega
    · rw [h1]
    · rw [h1]
      exact v
  · -- nonempty range
    have hcpos : 1 ≤ last - first := by omega
    have hc0 : ¬ sub32 last first = 0 := by omega
    have hsc := v.size_cap
    have hsm := v.size_max
    have hiters : sub32 q.write ((q.read + last) % U32) = l.length - last := by
      rw [v.write_eq, ← hlen]
      exact sub32_sub_base v.read_lt (by omega) (by omega)
    have herase : erase q first last =
        ((List.range (sub32 last first)).foldl
          (fun qq k => destroy qq (ptr_write qq k))
          { ((List.range (l.length - last)).foldl
            (fun qq kk =>
              write_slot qq (sub32 ((q.read + last + kk) % U32) (sub32 last first))
                (slot qq ((q.read + last + kk) % U32))) q) with
            write := sub32 ((List.range (l.length - last)).foldl
              (fun qq kk =>
                write_slot qq (sub32 ((q.read + last + kk) % U32) (sub32 last first))
                  (slot qq ((q.read + last + kk) % U32))) q).write (sub32 last first) },
         first) := by
      simp only [erase]
      rw [if_neg hc0, hiters]
    obtain ⟨hr1, hw1, hc1, hi1, hdata1⟩ :=
      erase_slide_inv v m first last hfl hls (l.length - last) (le_refl _)
    set q1 := (List.range (l.length - last)).foldl
      (fun qq kk =>
        write_slot qq (sub32 ((q.read + last + kk) % U32) (sub32 last first))
          (slot qq ((q.read + last + kk) % U32))) q with hq1def
    set q2 : Deque α := { q1 with write := sub32 q1.write (sub32 last first) } with hq2def
    have hq2read : q2.read = q.read := hr1
    have hq2cap : q2.capacity = q.capacity := hc1
    have hq2ic : q2.ic = q.ic := hi1
    have hq2write : q2.write = sub32 q.write (sub32 last first) := by
      show sub32 q1.write (sub32 last first) = sub32 q.write (sub32 last first)
      rw [hw1]
    have hsz2 : sub32 q2.write q2.read = l.length - (last - first) := by
      rw [hq2write, hq2read, v.write_eq, ← hlen, hcount]
      exact sub32_sub32 v.read_lt (by omega) (by omega)
    -- the trailing-destroy loop only touches slots past the new write pointer
    have hdestroy := foldl_inv_mem
      (fun qq : Deque α => qq.read = q.read ∧ qq.write = q2.write ∧
        qq.capacity = q.capacity ∧ qq.ic = q.ic ∧
        ∀ j : Nat, j < l.length - (last - first) →
          qq.data ((q.read + j) % q.capacity) =
            if first ≤ j then l[j + (last - first)]? else l[j]?)
      (fun qq k => destroy qq (ptr_write qq k))
      (List.range (sub32 last first)) ?step q2 ?base
    case base =>
      refine ⟨hq2read, rfl, hq2cap, hq2ic, ?_⟩
      intro j hj
      have := hdata1 j (by omega)
      have hdq2 : q2.data = q1.data := rfl
      rw [hdq2, this]
      by_cases hfj : first ≤ j
      · rw [if_pos (by omega : first ≤ j ∧ j < first + (l.length - last)), if_pos hfj]
      · rw [if_neg (by omega), if_neg hfj]
    case step =>
      intro qq k hk hinv
      obtain ⟨hqr, hqw, hqc, hqi, hqd⟩ := hinv
      have hkc : k < sub32 last first := List.mem_range.mp hk
      refine ⟨by simp only [destroy, write_slot_read]; exact hqr,
        by simp only [destroy, write_slot_write]; exact hqw,
        by simp only [destroy, write_slot_capacity]; exact hqc,
        by simp only [destroy, write_slot_ic]; exact hqi, ?_⟩
      intro j hj
      simp only [destroy, write_slot, ptr_write]
      rw [hqc]
      simp only [land_pred_pow2 v.cap_pow]
      have hwk : ((qq.write + k) % U32) % q.capacity =
          (q.read + (l.length - (last - first) + k)) % q.capacity := by
        rw [Nat.mod_mod_of_dvd _ hdvd, hqw, hq2write, v.write_eq, ← hlen, hcount]
        exact sub32_add_mod_cap hdvd k v.read_lt (by omega) (by omega) (by omega)
      rw [hwk]
      rw [if_neg ?_]
      · exact hqd j hj
      · intro hcontra
        have : j = l.length - (last - first) + k := phys_inj
          (by omega : j < q.capacity)
          (by rw [hcount] at hkc; omega : l.length - (last - first) + k < q.capacity)
          hcontra
        omega
    obtain ⟨hr3, hw3, hc3, hi3, hd3⟩ := hdestroy
    set q3 := (List.range (sub32 last first)).foldl
      (fun qq k => destroy qq (ptr_write qq k)) q2 with hq3def
    have h1 : (erase q first last).1 = q3 := by rw [herase]
    have h2 : (erase q first last).2 = first := by rw [herase]
    have hsz3 : size q3 = l.length - (last - first) := by
      show sub32 q3.write q3.read = _
      rw [hw3, hr3, ← hq2read]
      exact hsz2
    have hm3 : Models q3 (l.take first ++ l.drop last) := by
      constructor
      · rw [hsz3, hlermodel]
      · intro j hj
        rw [hlermodel] at hj
        have hidx : idx q3 j = q3.data ((q3.read + j) % q3.capacity) :=
          idx_eq_data_mod' (by rw [hc3]; exact v.cap_pow) (by rw [hc3]; exact hdvd) j
        rw [hidx, hr3, hc3, hd3 j (by omega)]
        by_cases hfj : first ≤ j
        · rw [if_pos hfj]
          have hb : j + (last - first) < l.length := by omega
          rw [List.getElem?_eq_getElem hb]
          congr 1
          rw [List.getElem_append_right (by rw [List.length_take]; omega)]
          rw [List.getElem_drop]
          congr 1
          rw [List.length_take]
          omega
        · rw [if_neg hfj]
          have hb : j < l.length := by omega
          rw [List.getElem?_eq_getElem hb]
          congr 1
          rw [List.getElem_append_left (by rw [List.length_take]; omega)]
          rw [List.getElem_take]
    have hv3 : Valid ic q3 := by
      refine ⟨by rw [hi3, v.ic_eq], v.ic_pow, by rw [hc3]; exact v.cap_pow,
        by rw [hc3]; exact v.cap_le, by rw [hc3]; exact v.ic_le,
        by rw [hr3]; exact v.read_lt, ?_, ?_, ?_⟩
      · rw [hw3, hq2write]
        exact sub32_lt _ _
      · rw [hsz3, hc3]
        omega
      · rw [hsz3]
        omega
    refine ⟨fun hcontra => absurd hcontra h0, h2, ?_, ?_, ?_, ?_⟩
    · rw [h1]
      exact hm3
    · rw [h1]
      exact hsz3
    · rw [h1]
      exact hc3
    · rw [h1]
      exact hv3

/-- Concrete queue for the C4 witness: `InlineCapacity 4`, elements 1..4. -/
def c4Queue : Deque Nat :=
  run (mkDeque Nat 4 4) [Op.pushB 1, Op.pushB 2, Op.pushB 3, Op.pushB 4]

theorem c4_witness :
    ∃ v : Valid 4 c4Queue, ∃ m : Models c4Queue [1, 2, 3, 4],
      (1 : Nat) ≤ 3 ∧ (3 : Nat) ≤ ([1, 2, 3, 4] : List Nat).length ∧
      ((1 = 3 → erase c4Queue 1 3 = (c4Queue, 1)) ∧
        (erase c4Queue 1 3).2 = 1 ∧
        Models (erase c4Queue 1 3).1
          (([1, 2, 3, 4] : List Nat).take 1 ++ ([1, 2, 3, 4] : List Nat).drop 3) ∧
        size (erase c4Queue 1 3).1 = ([1, 2, 3, 4] : List Nat).length - (3 - 1) ∧
        (erase c4Queue 1 3).1.capacity = c4Queue.capacity ∧
        Valid 4 (erase c4Queue 1 3).1) := by
  have hleg : legalFrom ([] : List Nat) [Op.pushB 1, Op.pushB 2, Op.pushB 3, Op.pushB 4] := by
    norm_num [legalFrom, modelStep, max_size, U32]
  obtain ⟨v, m⟩ := run_spec [Op.pushB 1, Op.pushB 2, Op.pushB 3, Op.pushB 4]
    (mkDeque_valid 4 ⟨2, rfl⟩ (by norm_num [U32]) (by norm_num [U32]))
    (mkDeque_models 4 4) hleg
  have m' : Models c4Queue [1, 2, 3, 4] := m
  exact ⟨v, m', by norm_num, by norm_num, c4_erase v m' 1 3 (by norm_num) (by norm_num)⟩

/-! ## `make_space` and `insert` (claim C3) -/

theorem growCap_ge (a needed : Nat) (ha : 0 < a) : needed ≤ growCap a needed := by
  rw [growCap]
  split
  · next h => exact growCap_ge (a * 2) needed (by omega)
  · next h => omega
termination_by needed - a
decreasing_by omega

theorem growCap_le_max (a needed : Nat) (ha : 0 < a) :
    growCap a needed ≤ Max.max a (2 * needed) := by
  rw [growCap]
  split
  · next h =>
    have hrec := growCap_le_max (a * 2) needed (by omega)
    have h2a : a * 2 ≤ 2 * needed := by omega
    omega
  · next h => omega
termination_by needed - a
decreasing_by omega

theorem size_write_add {r s n2 : Nat} (hr : r < U32) (hs : s < U32)
    (hsn : s + n2 < U32) : sub32 (((r + s) % U32 + n2) % U32) r = s + n2 := by
  simp only [sub32, U32] at *
  omega

/-- Specification of `make_space(pos, count)` for `1 ≤ count`: the iterator is
at `pos`, the capacity has grown by repeated doubling when needed, the size
grew by `count`, elements before `pos` stayed, elements from `pos` on moved
up by `count` slots, with a gap of `count` slots at `pos`. -/
theorem make_space_spec {ic : Nat} {q : Deque α} {l : List α} (v : Valid ic q)
    (m : Models q l) (pos n : Nat) (hpos : pos ≤ l.length) (hn : 1 ≤ n)
    (hmax : l.length + n ≤ max_size) :
    (make_space q pos n).2 = pos ∧
      size (make_space q pos n).1 = l.length + n ∧
      l.length + n ≤ (make_space q pos n).1.capacity ∧
      (l.length + n ≤ q.capacity → (make_space q pos n).1.capacity = q.capacity) ∧
      (q.capacity < l.length + n →
        (make_space q pos n).1.capacity = growCap (2 * q.capacity) (l.length + n)) ∧
      Valid ic (make_space q pos n).1 ∧
      (∀ j : Nat, j < pos → idx (make_space q pos n).1 j = l[j]?) ∧
      (∀ j : Nat, pos + n ≤ j → j < l.length + n →
        idx (make_space q pos n).1 j = l[j - n]?) := by
  have hs := m.1
  have hsmax := v.size_max
  have hmsl : max_size < U32 := max_size_lt
  have hsU : l.length < U32 := by omega
  have hneed : (size q + n) % U32 = l.length + n := by
    rw [hs]
    have := max_size_lt
    rw [Nat.mod_eq_of_lt (by omega)]
  have hn0 : ¬ n = 0 := by omega
  -- Stage A: the capacity-adjusted queue q1
  set q1 := if q.capacity < (size q + n) % U32 then
      resize q (growCap (Max.max 1 q.capacity * 2) ((size q + n) % U32)) else q with hq1def
  have hcpos := v.cap_pos
  have hmax1cap : Max.max 1 q.capacity = q.capacity := Nat.max_eq_right hcpos
  have hstageA : Valid ic q1 ∧ Models q1 l ∧ l.length + n ≤ q1.capacity ∧
      (l.length + n ≤ q.capacity → q1.capacity = q.capacity) ∧
      (q.capacity < l.length + n → q1.capacity = growCap (2 * q.capacity) (l.length + n)) := by
    rw [hq1def, hneed]
    by_cases hlt : q.capacity < l.length + n
    · rw [if_pos hlt]
      have hcaplemax : q.capacity ≤ max_size := by omega
      have h2cap : 2 * q.capacity < U32 := v.cap_pow.two_mul_lt hcaplemax
      have hgpow : IsPow2 (growCap (Max.max 1 q.capacity * 2) (l.length + n)) := by
        apply growCap_pow
        rw [hmax1cap]
        exact v.cap_pow.double
      have hge : l.length + n ≤ growCap (Max.max 1 q.capacity * 2) (l.length + n) :=
        growCap_ge _ _ (by omega)
      have hgle : growCap (Max.max 1 q.capacity * 2) (l.length + n) ≤ U32 := by
        have hb := growCap_le_max (Max.max 1 q.capacity * 2) (l.length + n) (by omega)
        have h2n : 2 * (l.length + n) < U32 := by
          simp only [max_size, U32] at *
          omega
        rw [hmax1cap] at hb ⊢
        omega
      have hicle : ic ≤ growCap (Max.max 1 q.capacity * 2) (l.length + n) := by
        have := v.ic_le
        omega
      have hmaxeq : Max.max (growCap (Max.max 1 q.capacity * 2) (l.length + n)) ic =
          growCap (Max.max 1 q.capacity * 2) (l.length + n) := Nat.max_eq_left hicle
      obtain ⟨v1, m1⟩ := resize_spec v m _ (by rw [hmaxeq]; exact hgpow)
        (by rw [hmaxeq]; exact hgle) (by rw [hmaxeq]; omega)
      refine ⟨v1, m1, ?_, fun hcon => by omega, fun _ => ?_⟩
      · rw [resize_capacity, v.ic_eq, hmaxeq]
        exact hge
      · rw [resize_capacity, v.ic_eq, hmaxeq, hmax1cap, Nat.mul_comm]
    · rw [if_neg hlt]
      exact ⟨v, m, by omega, fun _ => rfl, fun hcon => by omega⟩
  obtain ⟨v1, m1, hcap1, hcapeq, hcapgrow⟩ := hstageA
  -- Stage B: write_ advanced by n
  set q2 : Deque α := { q1 with write := (q1.write + n) % U32 } with hq2def
  have hq2read : q2.read = q1.read := rfl
  have hq2cap : q2.capacity = q1.capacity := rfl
  have hq2ic : q2.ic = q1.ic := rfl
  have hsz2 : sub32 q2.write q2.read = l.length + n := by
    show sub32 ((q1.write + n) % U32) q1.read = l.length + n
    rw [v1.write_eq, m1.1]
    exact size_write_add v1.read_lt (by omega) (by omega)
  have hidx2 : ∀ j : Nat, (hj : j < l.length) →
      q2.data ((q1.read + j) % q1.capacity) = l[j]? := by
    intro j hj
    have := m1.2 j hj
    rw [idx_eq_data_mod v1 j] at this
    rw [show q2.data = q1.data from rfl, this, List.getElem?_eq_getElem hj]
  -- Stage C: the backward moving loop
  have hmc : sub32 (size q) pos = l.length - pos := by
    rw [hs]
    exact sub32_eq_sub hpos (by omega)
  have hlast : 1 ≤ l.length → sub32 (size q) 1 = l.length - 1 := by
    intro h1
    rw [hs]
    exact sub32_eq_sub h1 (by omega)
  have hmain : ∀ k, k ≤ l.length - pos →
      ((((List.range k).foldl (fun qq i => moveStep n qq (sub32 (sub32 (size q) 1) i)) q2)).read
          = q1.read ∧
       (((List.range k).foldl (fun qq i => moveStep n qq (sub32 (sub32 (size q) 1) i)) q2)).write
          = q2.write ∧
       (((List.range k).foldl (fun qq i => moveStep n qq (sub32 (sub32 (size q) 1) i)) q2)).capacity
          = q1.capacity ∧
       (((List.range k).foldl (fun qq i => moveStep n qq (sub32 (sub32 (size q) 1) i)) q2)).ic
          = q1.ic ∧
       (∀ j : Nat, j < l.length - k →
         (((List.range k).foldl (fun qq i => moveStep n qq (sub32 (sub32 (size q) 1) i)) q2)).data
           ((q1.read + j) % q1.capacity) = l[j]?) ∧
       (∀ j : Nat, l.length - k + n ≤ j → j < l.length + n →
         (((List.range k).foldl (fun qq i => moveStep n qq (sub32 (sub32 (size q) 1) i)) q2)).data
           ((q1.read + j) % q1.capacity) = l[j - n]?)) := by
    intro k
    induction k with
    | zero =>
      intro _
      simp only [List.range_zero, List.foldl_nil]
      refine ⟨trivial, trivial, trivial, trivial, ?_, ?_⟩
      · intro j hj
        exact hidx2 j (by omega)
      · intro j hj1 hj2
        omega
    | succ k ih =>
      intro hk
      have hlen1 : 1 ≤ l.length := by omega
      obtain ⟨hr, hw, hc, hi, hlow, hhigh⟩ := ih (by omega)
      rw [List.range_succ, List.foldl_append, List.foldl_cons, List.foldl_nil]
      set qq := (List.range k).foldl (fun qq i => moveStep n qq (sub32 (sub32 (size q) 1) i)) q2
        with hqqdef
      have hmi : sub32 (sub32 (size q) 1) k = l.length - 1 - k := by
        rw [hlast hlen1]
        exact sub32_eq_sub (by omega) (by omega)
      have hmilt : l.length - 1 - k < l.length - k := by omega
      have hcap1pos : 0 < q1.capacity := v1.cap_pos
      have hdvd1 := v1.cap_dvd
      have hstep : moveStep n qq (sub32 (sub32 (size q) 1) k) =
          destroy (write_slot qq (ptr_read qq (l.length - 1 - k + n))
              (slot qq (ptr_read qq (l.length - 1 - k))))
            (ptr_read (write_slot qq (ptr_read qq (l.length - 1 - k + n))
              (slot qq (ptr_read qq (l.length - 1 - k)))) (l.length - 1 - k)) := by
        rw [hmi]
        rfl
      rw [hstep]
      have hsrc : slot qq ((q1.read + (l.length - 1 - k)) % U32) = l[l.length - 1 - k]? := by
        simp only [slot, hc, land_pred_pow2 v1.cap_pow, Nat.mod_mod_of_dvd _ hdvd1]
        exact hlow (l.length - 1 - k) hmilt
      refine ⟨?_, ?_, ?_, ?_, ?_, ?_⟩
      · simp only [destroy, write_slot_read, write_slot]
        exact hr
      · simp only [destroy, write_slot_write, write_slot]
        exact hw
      · simp only [destroy, write_slot_capacity, write_slot]
        exact hc
      · simp only [destroy, write_slot_ic, write_slot]
        exact hi
      · intro j hj
        simp only [destroy, write_slot, ptr_read, hr, hc,
          land_pred_pow2 v1.cap_pow, Nat.mod_mod_of_dvd _ hdvd1]
        rw [if_neg ?_, if_neg ?_]
        · exact hlow j (by omega)
        · intro hcontra
          have : j = l.length - 1 - k + n := phys_inj
            (by omega : j < q1.capacity) (by omega : l.length - 1 - k + n < q1.capacity)
            hcontra
          omega
        · intro hcontra
          have hjeq : j = l.length - 1 - k := phys_inj
            (by omega : j < q1.capacity) (by omega : l.length - 1 - k < q1.capacity)
            hcontra
          omega
      · intro j hj1 hj2
        simp only [destroy, write_slot, ptr_read, hr, hc,
          land_pred_pow2 v1.cap_pow, Nat.mod_mod_of_dvd _ hdvd1]
        by_cases hjtop : j = l.length - 1 - k + n
        · rw [if_neg ?_, if_pos (by rw [hjtop])]
          · rw [hsrc]
            congr 1
            omega
          · intro hcontra
            have : j = l.length - 1 - k := phys_inj
              (by omega : j < q1.capacity) (by omega : l.length - 1 - k < q1.capacity)
              hcontra
            omega
        · rw [if_neg ?_, if_neg ?_]
          · exact hhigh j (by omega) hj2
          · intro hcontra
            have : j = l.length - 1 - k + n := phys_inj
              (by omega : j < q1.capacity) (by omega : l.length - 1 - k + n < q1.capacity)
              hcontra
            omega
          · intro hcontra
            have : j = l.length - 1 - k := phys_inj
              (by omega : j < q1.capacity) (by omega : l.length - 1 - k < q1.capacity)
              hcontra
            omega
  obtain ⟨hr3, hw3, hc3, hi3, hlow3, hhigh3⟩ := hmain (l.length - pos)
    (le_refl _)
  have hms : make_space q pos n = ((List.range (sub32 (size q) pos)).foldl
      (fun qq i => moveStep n qq (sub32 (sub32 (size q) 1) i)) q2, pos) := by
    simp only [make_space]
    rw [if_neg hn0]
  rw [hmc] at hms
  set q3 := (List.range (l.length - pos)).foldl
    (fun qq i => moveStep n qq (sub32 (sub32 (size q) 1) i)) q2 with hq3def
  have h1 : (make_space q pos n).1 = q3 := by rw [hms]
  have h2 : (make_space q pos n).2 = pos := by rw [hms]
  have hsz3 : size q3 = l.length + n := by
    show sub32 q3.write q3.read = _
    rw [hw3, hr3, ← hq2read]
    exact hsz2
  have hv3 : Valid ic q3 := by
    refine ⟨by rw [hi3, v1.ic_eq], v1.ic_pow, by rw [hc3]; exact v1.cap_pow,
      by rw [hc3]; exact v1.cap_le, by rw [hc3]; exact v1.ic_le,
      by rw [hr3]; exact v1.read_lt, ?_, ?_, ?_⟩
    · rw [hw3]
      show (q1.write + n) % U32 < U32
      exact Nat.mod_lt _ U32_pos
    · rw [show size q3 = sub32 q3.write q3.read from rfl, hw3, hr3, ← hq2read, hsz2, hc3]
      omega
    · rw [show size q3 = sub32 q3.write q3.read from rfl, hw3, hr3, ← hq2read, hsz2]
      exact hmax
  refine ⟨h2, by rw [h1]; exact hsz3, by rw [h1, hc3]; exact hcap1,
    by rw [h1, hc3]; exact hcapeq, by rw [h1, hc3]; exact hcapgrow,
    by rw [h1]; exact hv3, ?_, ?_⟩
  · intro j hj
    rw [h1]
    have hidx : idx q3 j = q3.data ((q3.read + j) % q3.capacity) :=
      idx_eq_data_mod' (by rw [hc3]; exact v1.cap_pow) (by rw [hc3]; exact v1.cap_dvd) j
    rw [hidx, hr3, hc3]
    exact hlow3 j (by omega)
  · intro j hj1 hj2
    rw [h1]
    have hidx : idx q3 j = q3.data ((q3.read + j) % q3.capacity) :=
      idx_eq_data_mod' (by rw [hc3]; exact v1.cap_pow) (by rw [hc3]; exact v1.cap_dvd) j
    rw [hidx, hr3, hc3]
    exact hhigh3 j (by omega) hj2

/-- Full specification of `insert(pos, count, value)`: iterator at `pos`,
elements `take pos ++ replicate count value ++ drop pos`, size grown by
`count`, capacity unchanged when it sufficed and otherwise grown by repeated
doubling from `2 * capacity`, and the representation invariant preserved. -/
theorem insert_spec {ic : Nat} {q : Deque α} {l : List α} (v : Valid ic q)
    (m : Models q l) (pos n : Nat) (val : α) (hpos : pos ≤ l.length) (hn : 1 ≤ n)
    (hmax : l.length + n ≤ max_size) :
    (insert q pos n val).2 = pos ∧
      Models (insert q pos n val).1 (l.take pos ++ List.replicate n val ++ l.drop pos) ∧
      size (insert q pos n val).1 = l.length + n ∧
      l.length + n ≤ (insert q pos n val).1.capacity ∧
      (l.length + n ≤ q.capacity → (insert q pos n val).1.capacity = q.capacity) ∧
      (q.capacity < l.length + n →
        (insert q pos n val).1.capacity = growCap (2 * q.capacity) (l.length + n)) ∧
      Valid ic (insert q pos n val).1 := by
  obtain ⟨hit, hsz3, hcap3, hcapeq, hcapgrow, v3, hlow, hhigh⟩ :=
    make_space_spec v m pos n hpos hn hmax
  have hins : insert q pos n val = ((List.range n).foldl
      (fun qq i => construct qq (ptr_read qq ((make_space q pos n).2 + i)) val)
      (make_space q pos n).1, (make_space q pos n).2) := rfl
  rw [hit] at hins
  set q3 := (make_space q pos n).1 with hq3def
  have hdvd3 := v3.cap_dvd
  have hdlow : ∀ j : Nat, j < pos → q3.data ((q3.read + j) % q3.capacity) = l[j]? := by
    intro j hj
    rw [← idx_eq_data_mod v3 j]
    exact hlow j hj
  have hdhigh : ∀ j : Nat, pos + n ≤ j → j < l.length + n →
      q3.data ((q3.read + j) % q3.capacity) = l[j - n]? := by
    intro j hj1 hj2
    rw [← idx_eq_data_mod v3 j]
    exact hhigh j hj1 hj2
  have hfill : ∀ k, k ≤ n →
      (((List.range k).foldl
          (fun qq i => construct qq (ptr_read qq (pos + i)) val) q3)).read = q3.read ∧
        (((List.range k).foldl
          (fun qq i => construct qq (ptr_read qq (pos + i)) val) q3)).write = q3.write ∧
        (((List.range k).foldl
          (fun qq i => construct qq (ptr_read qq (pos + i)) val) q3)).capacity = q3.capacity ∧
        (((List.range k).foldl
          (fun qq i => construct qq (ptr_read qq (pos + i)) val) q3)).ic = q3.ic ∧
        (∀ j : Nat, j < pos →
          (((List.range k).foldl
            (fun qq i => construct qq (ptr_read qq (pos + i)) val) q3)).data
            ((q3.read + j) % q3.capacity) = l[j]?) ∧
        (∀ j : Nat, pos ≤ j → j < pos + k →
          (((List.range k).foldl
            (fun qq i => construct qq (ptr_read qq (pos + i)) val) q3)).data
            ((q3.read + j) % q3.capacity) = some val) ∧
        (∀ j : Nat, pos + n ≤ j → j < l.length + n →
          (((List.range k).foldl
            (fun qq i => construct qq (ptr_read qq (pos + i)) val) q3)).data
            ((q3.read + j) % q3.capacity) = l[j - n]?) := by
    intro k
    induction k with
    | zero =>
      intro _
      simp only [List.range_zero, List.foldl_nil]
      exact ⟨trivial, trivial, trivial, trivial, hdlow, fun j hj1 hj2 => by omega, hdhigh⟩
    | succ k ih =>
      intro hk
      obtain ⟨hr, hw, hc, hi, hplow, hpmid, hphigh⟩ := ih (by omega)
      rw [List.range_succ, List.foldl_append, List.foldl_cons, List.foldl_nil]
      set qq := (List.range k).foldl
        (fun qq i => construct qq (ptr_read qq (pos + i)) val) q3 with hqqdef
      refine ⟨?_, ?_, ?_, ?_, ?_, ?_, ?_⟩
      · simp only [construct, write_slot_read, write_slot]
        exact hr
      · simp only [construct, write_slot_write, write_slot]
        exact hw
      · simp only [construct, write_slot_capacity, write_slot]
        exact hc
      · simp only [construct, write_slot_ic, write_slot]
        exact hi
      · intro j hj
        simp only [construct, write_slot, ptr_read, hr, hc,
          land_pred_pow2 v3.cap_pow, Nat.mod_mod_of_dvd _ hdvd3]
        rw [if_neg ?_]
        · exact hplow j hj
        · intro hcontra
          have : j = pos + k := phys_inj
            (by omega : j < q3.capacity) (by omega : pos + k < q3.capacity) hcontra
          omega
      · intro j hj1 hj2
        simp only [construct, write_slot, ptr_read, hr, hc,
          land_pred_pow2 v3.cap_pow, Nat.mod_mod_of_dvd _ hdvd3]
        by_cases hjk : j = pos + k
        · rw [if_pos (by rw [hjk])]
        · rw [if_neg ?_]
          · exact hpmid j hj1 (by omega)
          · intro hcontra
            have : j = pos + k := phys_inj
              (by omega : j < q3.capacity) (by omega : pos + k < q3.capacity) hcontra
            omega
      · intro j hj1 hj2
        simp only [construct, write_slot, ptr_read, hr, hc,
          land_pred_pow2 v3.cap_pow, Nat.mod_mod_of_dvd _ hdvd3]
        rw [if_neg ?_]
        · exact hphigh j hj1 hj2
        · intro hcontra
          have : j = pos + k := phys_inj
            (by omega : j < q3.capacity) (by omega : pos + k < q3.capacity) hcontra
          omega
  obtain ⟨hr4, hw4, hc4, hi4, hflow, hfmid, hfhigh⟩ := hfill n (le_refl _)
  set q4 := (List.range n).foldl
    (fun qq i => construct qq (ptr_read qq (pos + i)) val) q3 with hq4def
  have h1 : (insert q pos n val).1 = q4 := by rw [hins]
  have h2 : (insert q pos n val).2 = pos := by rw [hins]
  have hsz4 : size q4 = l.length + n := by
    show sub32 q4.write q4.read = _
    rw [hw4, hr4]
    exact hsz3
  have hlen : (l.take pos ++ List.replicate n val ++ l.drop pos).length = l.length + n := by
    simp only [List.length_append, List.length_take, List.length_replicate,
      List.length_drop]
    omega
  have hv4 : Valid ic q4 := by
    refine ⟨by rw [hi4, v3.ic_eq], v3.ic_pow, by rw [hc4]; exact v3.cap_pow,
      by rw [hc4]; exact v3.cap_le, by rw [hc4]; exact v3.ic_le,
      by rw [hr4]; exact v3.read_lt, by rw [hw4]; exact v3.write_lt, ?_, ?_⟩
    · rw [show size q4 = sub32 q4.write q4.read from rfl, hw4, hr4, hc4]
      exact v3.size_cap
    · rw [show size q4 = sub32 q4.write q4.read from rfl, hw4, hr4]
      show size q3 ≤ max_size
      rw [hsz3]
      exact hmax
  have hm4 : Models q4 (l.take pos ++ List.replicate n val ++ l.drop pos) := by
    constructor
    · rw [hsz4, hlen]
    · intro j hj
      rw [hlen] at hj
      have hidx : idx q4 j = q4.data ((q4.read + j) % q4.capacity) :=
        idx_eq_data_mod' (by rw [hc4]; exact v3.cap_pow) (by rw [hc4]; exact hdvd3) j
      rw [hidx, hr4, hc4]
      by_cases hjlo : j < pos
      · rw [hflow j hjlo, List.getElem?_eq_getElem (show j < l.length by omega)]
        congr 1
        rw [List.getElem_append_left (by
          simp only [List.length_append, List.length_take, List.length_replicate]
          omega)]
        rw [List.getElem_append_left (by rw [List.length_take]; omega)]
        rw [List.getElem_take]
      · by_cases hjmid : j < pos + n
        · rw [hfmid j (by omega) hjmid]
          congr 1
          rw [List.getElem_append_left (by
            simp only [List.length_append, List.length_take, List.length_replicate]
            omega)]
          rw [List.getElem_append_right (by rw [List.length_take]; omega)]
          rw [List.getElem_replicate]
        · rw [hfhigh j (by omega) hj,
            List.getElem?_eq_getElem (show j - n < l.length by omega)]
          congr 1
          rw [List.getElem_append_right (by
            simp only [List.length_append, List.length_take, List.length_replicate]
            omega)]
          rw [List.getElem_drop]
          congr 1
          simp only [List.length_append, List.length_take, List.length_replicate]
          omega
  refine ⟨h2, by rw [h1]; exact hm4, by rw [h1]; exact hsz4,
    by rw [h1, hc4]; exact hcap3, fun hle => by rw [h1, hc4]; exact hcapeq hle,
    fun hgt => by rw [h1, hc4]; exact hcapgrow hgt, by rw [h1]; exact hv4⟩

/-- C3: `insert(pos, count, value)` inserts `count` copies of `value` before
logical position `pos`, sliding later elements up; the capacity grows by
repeated doubling exactly when `size() + count` exceeds it; the returned
iterator is at position `pos`; existing elements keep their relative order. -/
theorem c3_insert {ic : Nat} {q : Deque α} {l : List α} (v : Valid ic q)
    (m : Models q l) (pos n : Nat) (val : α) (hpos : pos ≤ l.length) (hn : 1 ≤ n)
    (hmax : l.length + n ≤ max_size) :
    (insert q pos n val).2 = pos ∧
      Models (insert q pos n val).1 (l.take pos ++ List.replicate n val ++ l.drop pos) ∧
      size (insert q pos n val).1 = l.length + n ∧
      l.length + n ≤ (insert q pos n val).1.capacity ∧
      (l.length + n ≤ q.capacity → (insert q pos n val).1.capacity = q.capacity) ∧
      (q.capacity < l.length + n →
        (insert q pos n val).1.capacity = growCap (2 * q.capacity) (l.length + n)) ∧
      Valid ic (insert q pos n val).1 :=
  insert_spec v m pos n val hpos hn hmax

/-- Concrete queue for the C3 witness: `InlineCapacity 4`, elements 4..7,
capacity 4 and size 4, so the insertion forces a doubling. -/
def c3Queue : Deque Nat :=
  run (mkDeque Nat 4 4) [Op.pushB 4, Op.pushB 5, Op.pushB 6, Op.pushB 7]

theorem c3_witness :
    ∃ v : Valid 4 c3Queue, ∃ m : Models c3Queue [4, 5, 6, 7],
      (1 : Nat) ≤ ([4, 5, 6, 7] : List Nat).length ∧ (1 : Nat) ≤ 3 ∧
      ([4, 5, 6, 7] : List Nat).length + 3 ≤ max_size ∧
      ((insert c3Queue 1 3 100).2 = 1 ∧
        Models (insert c3Queue 1 3 100).1
          (([4, 5, 6, 7] : List Nat).take 1 ++ List.replicate 3 100 ++
            ([4, 5, 6, 7] : List Nat).drop 1) ∧
        size (insert c3Queue 1 3 100).1 = ([4, 5, 6, 7] : List Nat).length + 3 ∧
        ([4, 5, 6, 7] : List Nat).length + 3 ≤ (insert c3Queue 1 3 100).1.capacity ∧
        (([4, 5, 6, 7] : List Nat).length + 3 ≤ c3Queue.capacity →
          (insert c3Queue 1 3 100).1.capacity = c3Queue.capacity) ∧
        (c3Queue.capacity < ([4, 5, 6, 7] : List Nat).length + 3 →
          (insert c3Queue 1 3 100).1.capacity =
            growCap (2 * c3Queue.capacity) (([4, 5, 6, 7] : List Nat).length + 3)) ∧
        Valid 4 (insert c3Queue 1 3 100).1) := by
  have hleg : legalFrom ([] : List Nat) [Op.pushB 4, Op.pushB 5, Op.pushB 6, Op.pushB 7] := by
    norm_num [legalFrom, modelStep, max_size, U32]
  obtain ⟨v, m⟩ := run_spec [Op.pushB 4, Op.pushB 5, Op.pushB 6, Op.pushB 7]
    (mkDeque_valid 4 ⟨2, rfl⟩ (by norm_num [U32]) (by norm_num [U32]))
    (mkDeque_models 4 4) hleg
  have m' : Models c3Queue [4, 5, 6, 7] := m
  exact ⟨v, m', by norm_num, by norm_num, by norm_num [max_size, U32],
    c3_insert v m' 1 3 100 (by norm_num) (by norm_num) (by norm_num [max_size, U32])⟩

/-! ## Moved-from source state (claim C6) -/

theorem move_from_src_state {ic : Nat} {q : Deque α} (v : Valid ic q) :
    (move_from q).2.capacity = ic ∧ (move_from q).2.ic = ic ∧
      (move_from q).2.read = (move_from q).2.write ∧ (move_from q).2.write < U32 := by
  simp only [move_from]
  by_cases hinline : q.capacity = q.ic
  · rw [if_pos hinline]
    have hfold := foldl_inv
      (fun p : Deque α × Deque α => p.2.write = q.write ∧ p.2.ic = q.ic)
      (fun (p : Deque α × Deque α) i =>
        (write_slot p.1 (ptr_read p.1 i) (slot p.2 (ptr_read p.2 i)),
         destroy p.2 (ptr_read p.2 i)))
      (fun s b hs => by simpa only [destroy, write_slot] using hs)
      (List.range (size q))
      ({ ic := q.ic, capacity := q.capacity, read := q.read, write := q.write,
         data := fun _ => none }, q) ⟨rfl, rfl⟩
    refine ⟨?_, ?_, rfl, ?_⟩
    · show q.ic = ic
      exact v.ic_eq
    · rw [show ∀ p : Deque α × Deque α,
        ({ p.2 with capacity := q.ic, read := p.2.write } : Deque α).ic = p.2.ic
          from fun p => rfl]
      rw [hfold.2]
      exact v.ic_eq
    · show (_ : Deque α × Deque α).2.write < U32
      rw [hfold.1]
      exact v.write_lt
  · rw [if_neg hinline]
    exact ⟨v.ic_eq, v.ic_eq, rfl, v.write_lt⟩

/-- C6: after `move_from` (the implementation of move construction and move
assignment), the source queue has `capacity() == InlineCapacity`,
`size() == 0`, satisfies the full representation invariant, models the empty
sequence, and can be pushed into again. -/
theorem c6_moved_from_source {ic : Nat} {q : Deque α} {l : List α}
    (v : Valid ic q) (m : Models q l) :
    (move_from q).2.capacity = ic ∧ size (move_from q).2 = 0 ∧
      Valid ic (move_from q).2 ∧ Models (move_from q).2 ([] : List α) ∧
      (∀ x : α, Valid ic (push_back (move_from q).2 x) ∧
        Models (push_back (move_from q).2 x) [x]) := by
  obtain ⟨hcap, hic, hrw, hwlt⟩ := move_from_src_state v
  have hsz : size (move_from q).2 = 0 := by
    show sub32 (move_from q).2.write (move_from q).2.read = 0
    rw [hrw]
    simp only [sub32, U32]
    omega
  have hv : Valid ic (move_from q).2 := by
    refine ⟨hic, v.ic_pow, ?_, ?_, ?_, ?_, ?_, ?_, ?_⟩
    · rw [hcap]
      exact v.ic_pow
    · rw [hcap]
      exact le_trans v.ic_le v.cap_le
    · rw [hcap]
    · rw [hrw]
      exact hwlt
    · exact hwlt
    · rw [hsz]
      exact Nat.zero_le _
    · rw [hsz]
      exact Nat.zero_le _
  have hm : Models (move_from q).2 ([] : List α) :=
    ⟨by simpa using hsz, fun i hi => absurd hi (by simp)⟩
  refine ⟨hcap, hsz, hv, hm, fun x => ?_⟩
  exact push_back_spec hv hm x (by norm_num [max_size, U32])

/-- Concrete heap-backed queue for the C6 witness: `InlineCapacity 1`,
capacity 2, elements 7 and 8. -/
def c6Queue : Deque Nat :=
  run (mkDeque Nat 1 1) [Op.pushB 7, Op.pushB 8]

theorem c6_witness :
    ∃ v : Valid 1 c6Queue, ∃ m : Models c6Queue [7, 8],
      ((move_from c6Queue).2.capacity = 1 ∧ size (move_from c6Queue).2 = 0 ∧
        Valid 1 (move_from c6Queue).2 ∧ Models (move_from c6Queue).2 ([] : List Nat) ∧
        (∀ x : Nat, Valid 1 (push_back (move_from c6Queue).2 x) ∧
          Models (push_back (move_from c6Queue).2 x) [x])) := by
  have hleg : legalFrom ([] : List Nat) [Op.pushB 7, Op.pushB 8] := by
    norm_num [legalFrom, modelStep, max_size, U32]
  obtain ⟨v, m⟩ := run_spec [Op.pushB 7, Op.pushB 8]
    (mkDeque_valid 1 ⟨0, rfl⟩ (by norm_num [U32]) (by norm_num [U32]))
    (mkDeque_models 1 1) hleg
  have m' : Models c6Queue [7, 8] := m
  exact ⟨v, m', c6_moved_from_source v m'⟩

/-! ## The rvalue `insert` overload copies (claim C10)

`insert(const_iterator pos, T&& value)` forwards to `insert(pos, 1, value)`.
Inside the function body the named rvalue reference `value` is an lvalue, so
the three-argument overload's fill loop copy-constructs from it and the
argument object is left unchanged.  To make copy-vs-move observable we embed
the test harness's `Value` type: its move constructor stamps the moved-from
object with the marker `0x88888888`, its copy constructor leaves the source
untouched. -/

structure MVal where
  val : Nat
deriving DecidableEq

/-- The moved-from marker the test harness's `Value` writes into a
moved-from object (`val_ = 0x88888888`). -/
def movedMarker : Nat := 0x88888888

/-- Copy construction of `Value`: the new object gets `val`, the source is
unchanged (so there is nothing to return for it). -/
def copyFrom (v : MVal) : MVal := ⟨v.val⟩

/-- Move construction of `Value`: returns `(new object, source after the
move)`; the source is stamped with `movedMarker`. -/
def moveFrom (v : MVal) : MVal × MVal := (⟨v.val⟩, ⟨movedMarker⟩)

/-- `insert(pos, T&& value)` as written in the source: the body passes
`value` as an lvalue to `insert(pos, 1, value)`, which copy-constructs.
Returns `((queue, iterator), the argument object after the call)`. -/
def insert_rvalue (q : Deque MVal) (pos : Nat) (val : MVal) :
    (Deque MVal × Nat) × MVal :=
  (insert q pos 1 (copyFrom val), val)

/-- What a genuinely moving overload would do (the spec-side alternative used
for contrast): move out of the argument and insert the moved-to value. -/
def insert_rvalue_moving (q : Deque MVal) (pos : Nat) (val : MVal) :
    (Deque MVal × Nat) × MVal :=
  ((moveFrom val).1, (moveFrom val).2) |>
    fun p => (insert q pos 1 p.1, p.2)

/-- C10: the rvalue overload `insert(pos, T&& val)` copy-constructs: the
queue receives a copy of `val` at position `pos` and the argument object is
not moved from (it is returned unchanged, unlike under move semantics, which
would stamp it with the moved-from marker). -/
theorem c10_rvalue_insert_copies {ic : Nat} {q : Deque MVal} {l : List MVal}
    (v : Valid ic q) (m : Models q l) (pos : Nat) (val : MVal)
    (hpos : pos ≤ l.length) (hmax : l.length + 1 ≤ max_size) :
    (insert_rvalue q pos val).2 = val ∧
      (insert_rvalue q pos val).1.2 = pos ∧
      Models (insert_rvalue q pos val).1.1 (l.take pos ++ [val] ++ l.drop pos) ∧
      (val.val ≠ movedMarker → (insert_rvalue_moving q pos val).2 ≠ val) := by
  obtain ⟨hit, hmodels, _⟩ := insert_spec v m pos 1 (copyFrom val) hpos (le_refl 1) hmax
  refine ⟨rfl, hit, ?_, ?_⟩
  · have hval : copyFrom val = val := rfl
    rw [show (insert_rvalue q pos val).1.1 = (insert q pos 1 (copyFrom val)).1 from rfl]
    rw [show List.replicate 1 (copyFrom val) = [val] from by rw [hval]; rfl] at hmodels
    exact hmodels
  · intro hne hcontra
    have : movedMarker = val.val := congrArg MVal.val hcontra
    exact hne this.symm

/-- Concrete queue for the C10 witness: `InlineCapacity 2`, one element. -/
def c10Queue : Deque MVal :=
  run (mkDeque MVal 2 2) [Op.pushB ⟨10⟩]

theorem c10_witness :
    ∃ v : Valid 2 c10Queue, ∃ m : Models c10Queue [⟨10⟩],
      (1 : Nat) ≤ ([(⟨10⟩ : MVal)] : List MVal).length ∧
      ([(⟨10⟩ : MVal)] : List MVal).length + 1 ≤ max_size ∧
      ((insert_rvalue c10Queue 1 ⟨5⟩).2 = ⟨5⟩ ∧
        (insert_rvalue c10Queue 1 ⟨5⟩).1.2 = 1 ∧
        Models (insert_rvalue c10Queue 1 ⟨5⟩).1.1
          (([(⟨10⟩ : MVal)] : List MVal).take 1 ++ [⟨5⟩] ++
            ([(⟨10⟩ : MVal)] : List MVal).drop 1) ∧
        ((⟨5⟩ : MVal).val ≠ movedMarker →
          (insert_rvalue_moving c10Queue 1 ⟨5⟩).2 ≠ ⟨5⟩)) := by
  have hleg : legalFrom ([] : List MVal) [Op.pushB ⟨10⟩] := by
    norm_num [legalFrom, modelStep, max_size, U32]
  obtain ⟨v, m⟩ := run_spec [Op.pushB ⟨10⟩]
    (mkDeque_valid 2 ⟨1, rfl⟩ (by norm_num [U32]) (by norm_num [U32]))
    (mkDeque_models 2 2) hleg
  have m' : Models c10Queue [⟨10⟩] := m
  exact ⟨v, m', by norm_num, by norm_num [max_size, U32],
    c10_rvalue_insert_copies v m' 1 ⟨5⟩ (by norm_num) (by norm_num [max_size, U32])⟩

end InlineDeque
